import Mathlib

/-!
Shallow embedding of the Porter stemmer (Go package `porter`, file `stemmer.go`).

The Go code works on a mutable byte buffer `b` with two integer indices:
`j` (start of the suffix under consideration) and `k` (index of the last
character of the current word).  We model the state as a `Stm` record over
`List Char`, with `j` and `k` as `Int` exactly as in the source (Go `int`).
Out-of-range reads, which cannot occur on the reachable states, are
totalised with a junk character.
-/

namespace Porter

/-- Go `consonant(pos)`: vowels a,e,i,o,u are never consonants; `y` is a
consonant at position 0 and otherwise a consonant iff the previous position
is a vowel; any other letter is a consonant.  A position at or beyond the
buffer length answers `false`. -/
def consonant (b : List Char) : Nat → Bool
  | 0 =>
    if b.length ≤ 0 then false
    else
      let c := b.getD 0 ' '
      if c = 'a' ∨ c = 'e' ∨ c = 'i' ∨ c = 'o' ∨ c = 'u' then false
      else true
  | pos + 1 =>
    if b.length ≤ pos + 1 then false
    else
      let c := b.getD (pos + 1) ' '
      if c = 'a' ∨ c = 'e' ∨ c = 'i' ∨ c = 'o' ∨ c = 'u' then false
      else if c = 'y' then !(consonant b pos)
      else true

/-- Go `vowel(pos)`: the negation of `consonant`. -/
def vowel (b : List Char) (pos : Nat) : Bool := !(consonant b pos)

/-- The stemmer state: buffer `b`, suffix cursor `j`, end index `k`
(mirrors the Go struct `stemmer`). -/
structure Stm where
  b : List Char
  j : Int
  k : Int
deriving DecidableEq, Repr

/-- Total read of `b[i]` for an `Int` index (junk on out-of-range; the Go
code never reads out of range on reachable states). -/
def getc (b : List Char) (i : Int) : Char :=
  if 0 ≤ i then b.getD i.toNat ' ' else ' '

/-- The loop of Go `m()` expressed over the list of consonant flags of the
positions `0..j`.  Phase 0 skips the leading consonant run, phase 1 skips a
vowel run looking for a consonant (counting one pair when found), phase 2
skips the consonant run of the current pair. -/
def mGo (phase : Nat) : List Bool → Nat
  | [] => 0
  | c :: rest =>
    if phase = 0 then (if c then mGo 0 rest else mGo 1 rest)
    else if phase = 1 then (if c then 1 + mGo 2 rest else mGo 1 rest)
    else (if c then mGo 2 rest else mGo 1 rest)

/-- Go `m()`: the number of consonant sequences in positions `0..j`. -/
def m (b : List Char) (j : Int) : Nat :=
  mGo 0 (((List.range ((j + 1).toNat))).map (consonant b))

/-- Measure of a whole word (the `m()` of a state whose `j` is the last
position of `w`). -/
def mW (w : List Char) : Nat := m w ((w.length : Int) - 1)

/-- Go `vowelinstem()`: true if some position in `0..j` is a vowel. -/
def vowelinstem (b : List Char) (j : Int) : Bool :=
  (List.range ((j + 1).toNat)).any fun i => !(consonant b i)

/-- Go `doublec(j)`: positions `j-1, j` hold the same letter and that letter
is a consonant. -/
def doublec (b : List Char) (j : Int) : Bool :=
  if j < 1 then false
  else if getc b j ≠ getc b (j - 1) then false
  else consonant b j.toNat

/-- Go `cvc(i)`: positions `i-2, i-1, i` form consonant-vowel-consonant and
the final consonant is not w, x or y. -/
def cvc (b : List Char) (i : Int) : Bool :=
  if i < 2 then false
  else if !(consonant b i.toNat) then false
  else if consonant b (i.toNat - 1) then false
  else if !(consonant b (i.toNat - 2)) then false
  else if getc b i = 'w' ∨ getc b i = 'x' ∨ getc b i = 'y' then false
  else true

/-- The current logical content of the word: positions `0..k`. -/
def content (z : Stm) : List Char := z.b.take ((z.k + 1).toNat)

/-- The test of Go `ends(s)`: `s` is no longer than `k` and the content
`b[0..k]` ends with `s`. -/
def endsB (z : Stm) (s : List Char) : Bool :=
  decide ((s.length : Int) ≤ z.k) && s.isSuffixOf (content z)

/-- The side effect of a successful Go `ends(s)`: `j := k - len(s)`. -/
def setJ (z : Stm) (s : List Char) : Stm := { z with j := z.k - s.length }

/-- Go `ends(s)`: returns the updated state and the boolean result; `j` is
set on success only. -/
def ends (z : Stm) (s : List Char) : Stm × Bool :=
  if endsB z s then (setJ z s, true) else (z, false)

/-- Go `copy(b[start:], s)`: overwrite `b` from `start` with the characters
of `s`, truncating at the end of `b`; the length of `b` is unchanged. -/
def listCopy (b : List Char) (start : Nat) (s : List Char) : List Char :=
  b.take start ++ s.take (b.length - start) ++ b.drop (start + s.length)

/-- Go `setto(s)`: write `s` at positions `j+1 ...` and set `k := j + len(s)`. -/
def setto (z : Stm) (s : List Char) : Stm :=
  { z with b := listCopy z.b ((z.j + 1).toNat) s, k := z.j + s.length }

/-- Go `r(s)`: replace by `s` only when `m() > 0`. -/
def r (z : Stm) (s : List Char) : Stm :=
  if 0 < m z.b z.j then setto z s else z

/- The suffix constants of the source (`_SSES`, `_IES`, ...). -/

def sBLANK : List Char := []
def sABLE : List Char := ['a', 'b', 'l', 'e']
def sAL : List Char := ['a', 'l']
def sALISM : List Char := ['a', 'l', 'i', 's', 'm']
def sALITI : List Char := ['a', 'l', 'i', 't', 'i']
def sALIZE : List Char := ['a', 'l', 'i', 'z', 'e']
def sALLI : List Char := ['a', 'l', 'l', 'i']
def sANCE : List Char := ['a', 'n', 'c', 'e']
def sANCI : List Char := ['a', 'n', 'c', 'i']
def sANT : List Char := ['a', 'n', 't']
def sAT : List Char := ['a', 't']
def sATE : List Char := ['a', 't', 'e']
def sATION : List Char := ['a', 't', 'i', 'o', 'n']
def sATIONAL : List Char := ['a', 't', 'i', 'o', 'n', 'a', 'l']
def sATIVE : List Char := ['a', 't', 'i', 'v', 'e']
def sATOR : List Char := ['a', 't', 'o', 'r']
def sBILITI : List Char := ['b', 'i', 'l', 'i', 't', 'i']
def sBL : List Char := ['b', 'l']
def sBLE : List Char := ['b', 'l', 'e']
def sBLI : List Char := ['b', 'l', 'i']
def sE : List Char := ['e']
def sED : List Char := ['e', 'd']
def sEED : List Char := ['e', 'e', 'd']
def sELI : List Char := ['e', 'l', 'i']
def sEMENT : List Char := ['e', 'm', 'e', 'n', 't']
def sENCE : List Char := ['e', 'n', 'c', 'e']
def sENCI : List Char := ['e', 'n', 'c', 'i']
def sENT : List Char := ['e', 'n', 't']
def sENTLI : List Char := ['e', 'n', 't', 'l', 'i']
def sER : List Char := ['e', 'r']
def sFUL : List Char := ['f', 'u', 'l']
def sFULNESS : List Char := ['f', 'u', 'l', 'n', 'e', 's', 's']
def sI : List Char := ['i']
def sIBLE : List Char := ['i', 'b', 'l', 'e']
def sIC : List Char := ['i', 'c']
def sICAL : List Char := ['i', 'c', 'a', 'l']
def sICATE : List Char := ['i', 'c', 'a', 't', 'e']
def sICITI : List Char := ['i', 'c', 'i', 't', 'i']
def sIES : List Char := ['i', 'e', 's']
def sING : List Char := ['i', 'n', 'g']
def sION : List Char := ['i', 'o', 'n']
def sISM : List Char := ['i', 's', 'm']
def sITI : List Char := ['i', 't', 'i']
def sIVE : List Char := ['i', 'v', 'e']
def sIVENESS : List Char := ['i', 'v', 'e', 'n', 'e', 's', 's']
def sIVITI : List Char := ['i', 'v', 'i', 't', 'i']
def sIZ : List Char := ['i', 'z']
def sIZATION : List Char := ['i', 'z', 'a', 't', 'i', 'o', 'n']
def sIZE : List Char := ['i', 'z', 'e']
def sIZER : List Char := ['i', 'z', 'e', 'r']
def sLOG : List Char := ['l', 'o', 'g']
def sLOGI : List Char := ['l', 'o', 'g', 'i']
def sMENT : List Char := ['m', 'e', 'n', 't']
def sNESS : List Char := ['n', 'e', 's', 's']
def sOU : List Char := ['o', 'u']
def sOUS : List Char := ['o', 'u', 's']
def sOUSLI : List Char := ['o', 'u', 's', 'l', 'i']
def sOUSNESS : List Char := ['o', 'u', 's', 'n', 'e', 's', 's']
def sSSES : List Char := ['s', 's', 'e', 's']
def sTION : List Char := ['t', 'i', 'o', 'n']
def sTIONAL : List Char := ['t', 'i', 'o', 'n', 'a', 'l']
def sY : List Char := ['y']

/-- The plural part of Go `step1ab` (Porter's step 1a): handles a trailing
`s` (`sses -> ss`, `ies -> i`, drop a single `s` unless preceded by `s`). -/
def step1a (z : Stm) : Stm :=
  if getc z.b z.k = 's' then
    if endsB z sSSES then { setJ z sSSES with k := z.k - 2 }
    else if endsB z sIES then setto (setJ z sIES) sI
    else if getc z.b (z.k - 1) ≠ 's' then { z with k := z.k - 1 }
    else z
  else z

/-- The correction chain Go `step1ab` applies after removing `ed`/`ing`
(the state comes in with `k` lowered to the suffix boundary, `j = k`):
`at/bl/iz` gain an `e`; a doubled consonant other than l,s,z loses one
copy (the Go code decrements `k`, inspects `b[k]` and re-increments for
l,s,z, which leaves the state unchanged); a measure-1 CVC stem gains an
`e`. -/
def step1b_core (z2 : Stm) : Stm :=
  if endsB z2 sAT then setto (setJ z2 sAT) sATE
  else if endsB z2 sBL then setto (setJ z2 sBL) sBLE
  else if endsB z2 sIZ then setto (setJ z2 sIZ) sIZE
  else if doublec z2.b z2.k then
    (if getc z2.b (z2.k - 1) = 'l' ∨ getc z2.b (z2.k - 1) = 's' ∨
        getc z2.b (z2.k - 1) = 'z'
     then z2
     else { z2 with k := z2.k - 1 })
  else if m z2.b z2.j = 1 ∧ cvc z2.b z2.k = true then setto z2 sE
  else z2

/-- The verb-ending part of Go `step1ab` (Porter's step 1b): `eed` with
`m() > 0` loses its `d`; otherwise `ed`/`ing` with a vowel in the stem is
removed (`k` drops to the matched `j`) and the remainder is corrected by
`step1b_core`. -/
def step1b (z : Stm) : Stm :=
  if endsB z sEED then
    (if 0 < m z.b (z.k - sEED.length) then { setJ z sEED with k := z.k - 1 }
     else setJ z sEED)
  else if endsB z sED then
    (if vowelinstem z.b (z.k - sED.length)
     then step1b_core { setJ z sED with k := z.k - sED.length }
     else setJ z sED)
  else if endsB z sING then
    (if vowelinstem z.b (z.k - sING.length)
     then step1b_core { setJ z sING with k := z.k - sING.length }
     else setJ z sING)
  else z

/-- Go `step1ab`: the plural part followed by the verb-ending part. -/
def step1ab (z : Stm) : Stm := step1b (step1a z)

/-- Go `step1c`: a terminal `y` becomes `i` when the stem holds a vowel
(`ends` sets `j` even when the vowel test then fails). -/
def step1c (z : Stm) : Stm :=
  if endsB z sY then
    (if vowelinstem z.b (z.k - sY.length)
     then { setJ z sY with b := z.b.set z.k.toNat 'i' }
     else setJ z sY)
  else z

def step2_a (z : Stm) : Stm :=
  if endsB z sATIONAL then r (setJ z sATIONAL) sATE
  else if endsB z sTIONAL then r (setJ z sTIONAL) sTION
  else z

def step2_c (z : Stm) : Stm :=
  if endsB z sENCI then r (setJ z sENCI) sENCE
  else if endsB z sANCI then r (setJ z sANCI) sANCE
  else z

def step2_e (z : Stm) : Stm :=
  if endsB z sIZER then r (setJ z sIZER) sIZE else z

def step2_l (z : Stm) : Stm :=
  if endsB z sBLI then r (setJ z sBLI) sBLE
  else if endsB z sALLI then r (setJ z sALLI) sAL
  else if endsB z sENTLI then r (setJ z sENTLI) sENT
  else if endsB z sELI then r (setJ z sELI) sE
  else if endsB z sOUSLI then r (setJ z sOUSLI) sOUS
  else z

def step2_o (z : Stm) : Stm :=
  if endsB z sIZATION then r (setJ z sIZATION) sIZE
  else if endsB z sATION then r (setJ z sATION) sATE
  else if endsB z sATOR then r (setJ z sATOR) sATE
  else z

def step2_s (z : Stm) : Stm :=
  if endsB z sALISM then r (setJ z sALISM) sAL
  else if endsB z sIVENESS then r (setJ z sIVENESS) sIVE
  else if endsB z sFULNESS then r (setJ z sFULNESS) sFUL
  else if endsB z sOUSNESS then r (setJ z sOUSNESS) sOUS
  else z

def step2_t (z : Stm) : Stm :=
  if endsB z sALITI then r (setJ z sALITI) sAL
  else if endsB z sIVITI then r (setJ z sIVITI) sIVE
  else if endsB z sBILITI then r (setJ z sBILITI) sBLE
  else z

def step2_g (z : Stm) : Stm :=
  if endsB z sLOGI then r (setJ z sLOGI) sLOG else z

/-- Go `step2`: double suffices to single ones, dispatching on `b[k-1]`
(with the `k == 0` guard of the source). -/
def step2 (z : Stm) : Stm :=
  if z.k = 0 then z
  else if getc z.b (z.k - 1) = 'a' then step2_a z
  else if getc z.b (z.k - 1) = 'c' then step2_c z
  else if getc z.b (z.k - 1) = 'e' then step2_e z
  else if getc z.b (z.k - 1) = 'l' then step2_l z
  else if getc z.b (z.k - 1) = 'o' then step2_o z
  else if getc z.b (z.k - 1) = 's' then step2_s z
  else if getc z.b (z.k - 1) = 't' then step2_t z
  else if getc z.b (z.k - 1) = 'g' then step2_g z
  else z

def step3_e (z : Stm) : Stm :=
  if endsB z sICATE then r (setJ z sICATE) sIC
  else if endsB z sATIVE then r (setJ z sATIVE) sBLANK
  else if endsB z sALIZE then r (setJ z sALIZE) sAL
  else z

def step3_i (z : Stm) : Stm :=
  if endsB z sICITI then r (setJ z sICITI) sIC else z

def step3_l (z : Stm) : Stm :=
  if endsB z sICAL then r (setJ z sICAL) sIC
  else if endsB z sFUL then r (setJ z sFUL) sBLANK
  else z

def step3_s (z : Stm) : Stm :=
  if endsB z sNESS then r (setJ z sNESS) sBLANK else z

/-- Go `step3`: `-ic-`, `-full`, `-ness` and the like, dispatching on `b[k]`. -/
def step3 (z : Stm) : Stm :=
  if getc z.b z.k = 'e' then step3_e z
  else if getc z.b z.k = 'i' then step3_i z
  else if getc z.b z.k = 'l' then step3_l z
  else if getc z.b z.k = 's' then step3_s z
  else z

/-- Go `step4_update`: truncate to the suffix boundary `j` only when
`m() > 1`. -/
def step4_update (z : Stm) : Stm :=
  if 1 < m z.b z.j then { z with k := z.j } else z

def step4_a (z : Stm) : Stm :=
  if endsB z sAL then step4_update (setJ z sAL) else z

def step4_c (z : Stm) : Stm :=
  if endsB z sANCE then step4_update (setJ z sANCE)
  else if endsB z sENCE then step4_update (setJ z sENCE)
  else z

def step4_e (z : Stm) : Stm :=
  if endsB z sER then step4_update (setJ z sER) else z

def step4_i (z : Stm) : Stm :=
  if endsB z sIC then step4_update (setJ z sIC) else z

def step4_l (z : Stm) : Stm :=
  if endsB z sABLE then step4_update (setJ z sABLE)
  else if endsB z sIBLE then step4_update (setJ z sIBLE)
  else z

def step4_n (z : Stm) : Stm :=
  if endsB z sANT then step4_update (setJ z sANT)
  else if endsB z sEMENT then step4_update (setJ z sEMENT)
  else if endsB z sMENT then step4_update (setJ z sMENT)
  else if endsB z sENT then step4_update (setJ z sENT)
  else z

/-- The `ion` rule of Go `step4_o`: truncate at the boundary only when the
letter just before the matched suffix (`b[j]`) is `s` or `t`. -/
def step4_o2 (z1 : Stm) : Stm :=
  if endsB z1 sION then
    (if getc z1.b (z1.k - sION.length) = 's' ∨ getc z1.b (z1.k - sION.length) = 't'
     then step4_update (setJ z1 sION)
     else setJ z1 sION)
  else z1

/-- Go `step4_o`: the `ou` rule, then the `ion` rule. -/
def step4_o (z : Stm) : Stm :=
  step4_o2 (if endsB z sOU then step4_update (setJ z sOU) else z)

def step4_s (z : Stm) : Stm :=
  if endsB z sISM then step4_update (setJ z sISM) else z

def step4_t (z : Stm) : Stm :=
  if endsB z sATE then step4_update (setJ z sATE)
  else if endsB z sITI then step4_update (setJ z sITI)
  else z

def step4_u (z : Stm) : Stm :=
  if endsB z sOUS then step4_update (setJ z sOUS) else z

def step4_v (z : Stm) : Stm :=
  if endsB z sIVE then step4_update (setJ z sIVE) else z

def step4_z (z : Stm) : Stm :=
  if endsB z sIZE then step4_update (setJ z sIZE) else z

/-- Go `step4`: `-ant`, `-ence` and the like in context `<c>vcvc<v>`,
dispatching on `b[k-1]` (with the `k == 0` guard of the source). -/
def step4 (z : Stm) : Stm :=
  if z.k = 0 then z
  else if getc z.b (z.k - 1) = 'a' then step4_a z
  else if getc z.b (z.k - 1) = 'c' then step4_c z
  else if getc z.b (z.k - 1) = 'e' then step4_e z
  else if getc z.b (z.k - 1) = 'i' then step4_i z
  else if getc z.b (z.k - 1) = 'l' then step4_l z
  else if getc z.b (z.k - 1) = 'n' then step4_n z
  else if getc z.b (z.k - 1) = 'o' then step4_o z
  else if getc z.b (z.k - 1) = 's' then step4_s z
  else if getc z.b (z.k - 1) = 't' then step4_t z
  else if getc z.b (z.k - 1) = 'u' then step4_u z
  else if getc z.b (z.k - 1) = 'v' then step4_v z
  else if getc z.b (z.k - 1) = 'z' then step4_z z
  else z

/-- The `e`-dropping half of Go `step5` (`j` has already been set to `k`). -/
def step5_e (z0 : Stm) : Stm :=
  if getc z0.b z0.k = 'e' then
    (if 1 < m z0.b z0.j ∨ (m z0.b z0.j = 1 ∧ cvc z0.b (z0.k - 1) = false)
     then { z0 with k := z0.k - 1 }
     else z0)
  else z0

/-- The double-`l` half of Go `step5` (note `j` keeps the value set at the
entry of `step5`, even when the `e` was dropped). -/
def step5_l (z1 : Stm) : Stm :=
  if getc z1.b z1.k = 'l' ∧ doublec z1.b z1.k = true ∧ 1 < m z1.b z1.j
  then { z1 with k := z1.k - 1 }
  else z1

/-- Go `step5`: drop a final `e` when `m() > 1` (or `m() = 1` without a cvc
ending just before it), then drop one `l` of a final double `l` when
`m() > 1`. -/
def step5 (z : Stm) : Stm := step5_l (step5_e { z with j := z.k })

/-- Go `stem(b)`: initialise the state and run the six stages when the word
is longer than two characters; the resulting state (its `k` is the value
the Go function returns). -/
def stemRun (b : List Char) : Stm :=
  if 1 < (b.length : Int) - 1 then
    step5 (step4 (step3 (step2 (step1c (step1ab
      { b := b, j := 0, k := (b.length : Int) - 1 })))))
  else { b := b, j := 0, k := (b.length : Int) - 1 }

/-- The end index returned by Go `stem(b)`. -/
def stemK (b : List Char) : Int := (stemRun b).k

/-- ASCII lower-casing of one character (the loop of Go `StemBytes`). -/
def asciiLower (c : Char) : Char :=
  if 'A' ≤ c ∧ c ≤ 'Z' then Char.ofNat (c.toNat + 32) else c

/-- Go `Stem(word)`: empty input gives an empty result; otherwise the word
is lower-cased, stemmed, and the prefix `b[0..bn]` returned when
`0 ≤ bn < len(b)`; `none` models the `ErrInvalidInput` branch.  The Go
function lower-cases with `strings.ToLower`; over the spec's domain of
single-byte ASCII letters that coincides with the ASCII rule used here
(and in Go `StemBytes`). -/
def Stem (w : List Char) : Option (List Char) :=
  if w = [] then some []
  else if 0 ≤ (stemRun (w.map asciiLower)).k ∧
      (stemRun (w.map asciiLower)).k < ((stemRun (w.map asciiLower)).b.length : Int)
  then some ((stemRun (w.map asciiLower)).b.take (((stemRun (w.map asciiLower)).k + 1).toNat))
  else none

/-- Go `StemBytes(b)`: as `Stem`, over the caller's buffer (the bound check
uses the input length, which the stemmer preserves). -/
def StemBytes (b : List Char) : Option (List Char) :=
  if b = [] then some []
  else if 0 ≤ (stemRun (b.map asciiLower)).k ∧ (stemRun (b.map asciiLower)).k < (b.length : Int)
  then some ((stemRun (b.map asciiLower)).b.take (((stemRun (b.map asciiLower)).k + 1).toNat))
  else none

/-! Specification-side definitions, written from the words of the spec and
of the claims, to be compared with the code-derived definitions above. -/

/-- Specification counterpart of the measure (claim C5): writing the
positions as consonant flags, the number of complete (vowel-run,
consonant-run) pairs is the number of places where a consonant run starts
right after a vowel.  `prev` is the flag of the previous position; it
starts as `true` so that a leading consonant run is not counted. -/
def risingEdges (prev : Bool) : List Bool → Nat
  | [] => 0
  | c :: rest => (if c ∧ ¬prev then 1 else 0) + risingEdges c rest

/-- Word-level suffix test, as understood by the spec's stage descriptions:
the word ends with `s` and `s` is strictly shorter than the word (the
behaviour of the `ends` primitive on a word of content length `k+1`). -/
def endsW (w s : List Char) : Bool :=
  decide (s.length < w.length) && s.isSuffixOf w

/-- Word-level "contains a vowel". -/
def wordHasVowel (w : List Char) : Bool :=
  (List.range w.length).any fun i => !(consonant w i)

/-- Claim C6's description of the correction chain applied to the remainder
`rm` after the `ed`/`ing` suffix is removed: first `at`→`ate`, `bl`→`ble`,
`iz`→`ize`; else a doubled consonant loses one copy unless it is l, s or z;
else a measure-1 CVC remainder gains an `e`. -/
def spec1bCore (rm : List Char) : List Char :=
  if endsW rm sAT then rm.take (rm.length - 2) ++ sATE
  else if endsW rm sBL then rm.take (rm.length - 2) ++ sBLE
  else if endsW rm sIZ then rm.take (rm.length - 2) ++ sIZE
  else if doublec rm ((rm.length : Int) - 1) then
    if rm.getD (rm.length - 1) ' ' = 'l' ∨ rm.getD (rm.length - 1) ' ' = 's' ∨
        rm.getD (rm.length - 1) ' ' = 'z'
    then rm
    else rm.take (rm.length - 1)
  else if mW rm = 1 ∧ cvc rm ((rm.length : Int) - 1) = true then rm ++ sE
  else rm

/-- Claim C6's description of the whole verb-ending sub-step on a word that
ends in `ed` or `ing`: remove the suffix, then correct the remainder. -/
def step1bSpec (w : List Char) : List Char :=
  spec1bCore (if endsW w sED then w.take (w.length - 2) else w.take (w.length - 3))

/- Concrete words used by the literal scenarios and counterexamples. -/

def wCaresses : List Char := ['c', 'a', 'r', 'e', 's', 's', 'e', 's']
def wCaress : List Char := ['c', 'a', 'r', 'e', 's', 's']
def wPonies : List Char := ['p', 'o', 'n', 'i', 'e', 's']
def wPoni : List Char := ['p', 'o', 'n', 'i']
def wTies : List Char := ['t', 'i', 'e', 's']
def wTi : List Char := ['t', 'i']
def wCats : List Char := ['c', 'a', 't', 's']
def wCat : List Char := ['c', 'a', 't']
def wHopping : List Char := ['h', 'o', 'p', 'p', 'i', 'n', 'g']
def wHop : List Char := ['h', 'o', 'p']
def wTanned : List Char := ['t', 'a', 'n', 'n', 'e', 'd']
def wTan : List Char := ['t', 'a', 'n']
def wFalling : List Char := ['f', 'a', 'l', 'l', 'i', 'n', 'g']
def wFall : List Char := ['f', 'a', 'l', 'l']
def wHissing : List Char := ['h', 'i', 's', 's', 'i', 'n', 'g']
def wHiss : List Char := ['h', 'i', 's', 's']
def wFizzed : List Char := ['f', 'i', 'z', 'z', 'e', 'd']
def wFizz : List Char := ['f', 'i', 'z', 'z']
def wFailing : List Char := ['f', 'a', 'i', 'l', 'i', 'n', 'g']
def wFail : List Char := ['f', 'a', 'i', 'l']
def wFiling : List Char := ['f', 'i', 'l', 'i', 'n', 'g']
def wFile : List Char := ['f', 'i', 'l', 'e']
def wHappy : List Char := ['h', 'a', 'p', 'p', 'y']
def wHappi : List Char := ['h', 'a', 'p', 'p', 'i']
def wSky : List Char := ['s', 'k', 'y']
def wTr : List Char := ['t', 'r']
def wTroubles : List Char := ['t', 'r', 'o', 'u', 'b', 'l', 'e', 's']
def wPrivate : List Char := ['p', 'r', 'i', 'v', 'a', 't', 'e']
def wAgreed : List Char := ['a', 'g', 'r', 'e', 'e', 'd']
def wAgree : List Char := ['a', 'g', 'r', 'e', 'e']
def wAgre : List Char := ['a', 'g', 'r', 'e']
def wAdoration : List Char := ['a', 'd', 'o', 'r', 'a', 't', 'i', 'o', 'n']

/-- The initial stemmer state on the buffer `sses` (as built by `stem`). -/
def zSses : Stm := { b := ['s', 's', 'e', 's'], j := 0, k := 3 }

/-- The initial stemmer state on the buffer `agreed`. -/
def zAgreed : Stm := { b := wAgreed, j := 0, k := 5 }

/-- The initial stemmer state on the buffer `adoration`. -/
def zAdoration : Stm := { b := wAdoration, j := 0, k := 8 }

/-! Basic facts about the primitives. -/

theorem endsB_le {z : Stm} {s : List Char} (h : endsB z s = true) :
    (s.length : Int) ≤ z.k := by
  simp only [endsB, Bool.and_eq_true, decide_eq_true_eq] at h
  exact h.1

theorem endsB_sfx {z : Stm} {s : List Char} (h : endsB z s = true) :
    s.isSuffixOf (content z) = true := by
  simp only [endsB, Bool.and_eq_true, decide_eq_true_eq] at h
  exact h.2

theorem mGo_small {l : List Bool} (h : l.length ≤ 1) : mGo 0 l = 0 := by
  match l with
  | [] => rfl
  | [c] => cases c <;> rfl
  | a :: b :: t => simp at h

theorem m_j_nonpos {b : List Char} {j : Int} (h : j ≤ 0) : m b j = 0 := by
  apply mGo_small
  simp only [List.length_map, List.length_range]
  omega

theorem m_pos_j {b : List Char} {j : Int} (h : 0 < m b j) : 1 ≤ j := by
  by_contra hc
  rw [m_j_nonpos (by omega)] at h
  omega

theorem doublec_ge_one {b : List Char} {j : Int} (h : doublec b j = true) :
    1 ≤ j := by
  unfold doublec at h
  split at h
  · simp at h
  · omega

theorem doublec_eq_chars {b : List Char} {j : Int} (h : doublec b j = true) :
    getc b j = getc b (j - 1) := by
  unfold doublec at h
  split at h
  · simp at h
  · split at h
    · simp at h
    · next h2 => exact not_ne_iff.mp h2

/-! End-index arithmetic of the rewrite primitives. -/

theorem setto_k (z : Stm) (s : List Char) : (setto z s).k = z.j + s.length := rfl

theorem setJ_k (z : Stm) (s : List Char) : (setJ z s).k = z.k := rfl

theorem setJ_j (z : Stm) (s : List Char) : (setJ z s).j = z.k - s.length := rfl

theorem setJ_b (z : Stm) (s : List Char) : (setJ z s).b = z.b := rfl

theorem r_setJ_k_le (z : Stm) (s t : List Char) (h : t.length ≤ s.length) :
    (r (setJ z s) t).k ≤ z.k := by
  unfold r
  split
  · simp only [setto_k, setJ_j]
    omega
  · exact le_refl _

theorem r_setJ_k_nonneg (z : Stm) (s t : List Char) (h : endsB z s = true)
    (hk : 0 ≤ z.k) : 0 ≤ (r (setJ z s) t).k := by
  have hle := endsB_le h
  unfold r
  split
  · simp only [setto_k, setJ_j]
    omega
  · simpa [setJ_k] using hk

theorem upd_setJ_k_le (z : Stm) (s : List Char) :
    (step4_update (setJ z s)).k ≤ z.k := by
  unfold step4_update
  split
  · simp only [setJ_j, setJ_k]
    omega
  · exact le_refl _

theorem upd_setJ_k_nonneg (z : Stm) (s : List Char) (h : endsB z s = true)
    (hk : 0 ≤ z.k) : 0 ≤ (step4_update (setJ z s)).k := by
  have hle := endsB_le h
  unfold step4_update
  split
  · simp only [setJ_j, setJ_k]
    omega
  · simpa [setJ_k] using hk

theorem upd_b (z : Stm) : (step4_update z).b = z.b := by
  unfold step4_update
  split <;> rfl


/-! Buffer length preservation. -/

theorem listCopy_length (b : List Char) (st : Nat) (s : List Char) :
    (listCopy b st s).length = b.length := by
  unfold listCopy
  simp only [List.length_append, List.length_take, List.length_drop]
  omega

theorem setto_b_len (z : Stm) (s : List Char) :
    (setto z s).b.length = z.b.length := by
  unfold setto
  exact listCopy_length _ _ _

theorem r_b_len (z : Stm) (s : List Char) : (r z s).b.length = z.b.length := by
  unfold r
  split
  · exact setto_b_len _ _
  · rfl

/-! Per-stage end-index and length lemmas. -/


theorem step2_a_k_le (z : Stm) : (step2_a z).k ≤ z.k := by
  unfold step2_a
  split_ifs <;> first
    | exact le_refl _
    | exact r_setJ_k_le _ _ _ (by decide)

theorem step2_a_k_nonneg (z : Stm) (hk : 0 ≤ z.k) : 0 ≤ (step2_a z).k := by
  unfold step2_a
  split_ifs <;> first
    | exact hk
    | (apply r_setJ_k_nonneg <;> assumption)

theorem step2_a_b_len (z : Stm) : (step2_a z).b.length = z.b.length := by
  unfold step2_a
  split_ifs <;> simp [r_b_len, setJ_b]


theorem step2_c_k_le (z : Stm) : (step2_c z).k ≤ z.k := by
  unfold step2_c
  split_ifs <;> first
    | exact le_refl _
    | exact r_setJ_k_le _ _ _ (by decide)

theorem step2_c_k_nonneg (z : Stm) (hk : 0 ≤ z.k) : 0 ≤ (step2_c z).k := by
  unfold step2_c
  split_ifs <;> first
    | exact hk
    | (apply r_setJ_k_nonneg <;> assumption)

theorem step2_c_b_len (z : Stm) : (step2_c z).b.length = z.b.length := by
  unfold step2_c
  split_ifs <;> simp [r_b_len, setJ_b]


theorem step2_e_k_le (z : Stm) : (step2_e z).k ≤ z.k := by
  unfold step2_e
  split_ifs <;> first
    | exact le_refl _
    | exact r_setJ_k_le _ _ _ (by decide)

theorem step2_e_k_nonneg (z : Stm) (hk : 0 ≤ z.k) : 0 ≤ (step2_e z).k := by
  unfold step2_e
  split_ifs <;> first
    | exact hk
    | (apply r_setJ_k_nonneg <;> assumption)

theorem step2_e_b_len (z : Stm) : (step2_e z).b.length = z.b.length := by
  unfold step2_e
  split_ifs <;> simp [r_b_len, setJ_b]


theorem step2_l_k_le (z : Stm) : (step2_l z).k ≤ z.k := by
  unfold step2_l
  split_ifs <;> first
    | exact le_refl _
    | exact r_setJ_k_le _ _ _ (by decide)

theorem step2_l_k_nonneg (z : Stm) (hk : 0 ≤ z.k) : 0 ≤ (step2_l z).k := by
  unfold step2_l
  split_ifs <;> first
    | exact hk
    | (apply r_setJ_k_nonneg <;> assumption)

theorem step2_l_b_len (z : Stm) : (step2_l z).b.length = z.b.length := by
  unfold step2_l
  split_ifs <;> simp [r_b_len, setJ_b]


theorem step2_o_k_le (z : Stm) : (step2_o z).k ≤ z.k := by
  unfold step2_o
  split_ifs <;> first
    | exact le_refl _
    | exact r_setJ_k_le _ _ _ (by decide)

theorem step2_o_k_nonneg (z : Stm) (hk : 0 ≤ z.k) : 0 ≤ (step2_o z).k := by
  unfold step2_o
  split_ifs <;> first
    | exact hk
    | (apply r_setJ_k_nonneg <;> assumption)

theorem step2_o_b_len (z : Stm) : (step2_o z).b.length = z.b.length := by
  unfold step2_o
  split_ifs <;> simp [r_b_len, setJ_b]


theorem step2_s_k_le (z : Stm) : (step2_s z).k ≤ z.k := by
  unfold step2_s
  split_ifs <;> first
    | exact le_refl _
    | exact r_setJ_k_le _ _ _ (by decide)

theorem step2_s_k_nonneg (z : Stm) (hk : 0 ≤ z.k) : 0 ≤ (step2_s z).k := by
  unfold step2_s
  split_ifs <;> first
    | exact hk
    | (apply r_setJ_k_nonneg <;> assumption)

theorem step2_s_b_len (z : Stm) : (step2_s z).b.length = z.b.length := by
  unfold step2_s
  split_ifs <;> simp [r_b_len, setJ_b]


theorem step2_t_k_le (z : Stm) : (step2_t z).k ≤ z.k := by
  unfold step2_t
  split_ifs <;> first
    | exact le_refl _
    | exact r_setJ_k_le _ _ _ (by decide)

theorem step2_t_k_nonneg (z : Stm) (hk : 0 ≤ z.k) : 0 ≤ (step2_t z).k := by
  unfold step2_t
  split_ifs <;> first
    | exact hk
    | (apply r_setJ_k_nonneg <;> assumption)

theorem step2_t_b_len (z : Stm) : (step2_t z).b.length = z.b.length := by
  unfold step2_t
  split_ifs <;> simp [r_b_len, setJ_b]


theorem step2_g_k_le (z : Stm) : (step2_g z).k ≤ z.k := by
  unfold step2_g
  split_ifs <;> first
    | exact le_refl _
    | exact r_setJ_k_le _ _ _ (by decide)

theorem step2_g_k_nonneg (z : Stm) (hk : 0 ≤ z.k) : 0 ≤ (step2_g z).k := by
  unfold step2_g
  split_ifs <;> first
    | exact hk
    | (apply r_setJ_k_nonneg <;> assumption)

theorem step2_g_b_len (z : Stm) : (step2_g z).b.length = z.b.length := by
  unfold step2_g
  split_ifs <;> simp [r_b_len, setJ_b]


theorem step3_e_k_le (z : Stm) : (step3_e z).k ≤ z.k := by
  unfold step3_e
  split_ifs <;> first
    | exact le_refl _
    | exact r_setJ_k_le _ _ _ (by decide)

theorem step3_e_k_nonneg (z : Stm) (hk : 0 ≤ z.k) : 0 ≤ (step3_e z).k := by
  unfold step3_e
  split_ifs <;> first
    | exact hk
    | (apply r_setJ_k_nonneg <;> assumption)

theorem step3_e_b_len (z : Stm) : (step3_e z).b.length = z.b.length := by
  unfold step3_e
  split_ifs <;> simp [r_b_len, setJ_b]


theorem step3_i_k_le (z : Stm) : (step3_i z).k ≤ z.k := by
  unfold step3_i
  split_ifs <;> first
    | exact le_refl _
    | exact r_setJ_k_le _ _ _ (by decide)

theorem step3_i_k_nonneg (z : Stm) (hk : 0 ≤ z.k) : 0 ≤ (step3_i z).k := by
  unfold step3_i
  split_ifs <;> first
    | exact hk
    | (apply r_setJ_k_nonneg <;> assumption)

theorem step3_i_b_len (z : Stm) : (step3_i z).b.length = z.b.length := by
  unfold step3_i
  split_ifs <;> simp [r_b_len, setJ_b]


theorem step3_l_k_le (z : Stm) : (step3_l z).k ≤ z.k := by
  unfold step3_l
  split_ifs <;> first
    | exact le_refl _
    | exact r_setJ_k_le _ _ _ (by decide)

theorem step3_l_k_nonneg (z : Stm) (hk : 0 ≤ z.k) : 0 ≤ (step3_l z).k := by
  unfold step3_l
  split_ifs <;> first
    | exact hk
    | (apply r_setJ_k_nonneg <;> assumption)

theorem step3_l_b_len (z : Stm) : (step3_l z).b.length = z.b.length := by
  unfold step3_l
  split_ifs <;> simp [r_b_len, setJ_b]


theorem step3_s_k_le (z : Stm) : (step3_s z).k ≤ z.k := by
  unfold step3_s
  split_ifs <;> first
    | exact le_refl _
    | exact r_setJ_k_le _ _ _ (by decide)

theorem step3_s_k_nonneg (z : Stm) (hk : 0 ≤ z.k) : 0 ≤ (step3_s z).k := by
  unfold step3_s
  split_ifs <;> first
    | exact hk
    | (apply r_setJ_k_nonneg <;> assumption)

theorem step3_s_b_len (z : Stm) : (step3_s z).b.length = z.b.length := by
  unfold step3_s
  split_ifs <;> simp [r_b_len, setJ_b]


theorem step2_k_le (z : Stm) : (step2 z).k ≤ z.k := by
  unfold step2
  split_ifs <;> first
    | exact le_refl _
    | exact step2_a_k_le z
    | exact step2_c_k_le z
    | exact step2_e_k_le z
    | exact step2_l_k_le z
    | exact step2_o_k_le z
    | exact step2_s_k_le z
    | exact step2_t_k_le z
    | exact step2_g_k_le z

theorem step2_k_nonneg (z : Stm) (hk : 0 ≤ z.k) : 0 ≤ (step2 z).k := by
  unfold step2
  split_ifs <;> first
    | exact hk
    | exact step2_a_k_nonneg z hk
    | exact step2_c_k_nonneg z hk
    | exact step2_e_k_nonneg z hk
    | exact step2_l_k_nonneg z hk
    | exact step2_o_k_nonneg z hk
    | exact step2_s_k_nonneg z hk
    | exact step2_t_k_nonneg z hk
    | exact step2_g_k_nonneg z hk

theorem step2_b_len (z : Stm) : (step2 z).b.length = z.b.length := by
  unfold step2
  split_ifs <;> first
    | rfl
    | exact step2_a_b_len z
    | exact step2_c_b_len z
    | exact step2_e_b_len z
    | exact step2_l_b_len z
    | exact step2_o_b_len z
    | exact step2_s_b_len z
    | exact step2_t_b_len z
    | exact step2_g_b_len z


theorem step3_k_le (z : Stm) : (step3 z).k ≤ z.k := by
  unfold step3
  split_ifs <;> first
    | exact le_refl _
    | exact step3_e_k_le z
    | exact step3_i_k_le z
    | exact step3_l_k_le z
    | exact step3_s_k_le z

theorem step3_k_nonneg (z : Stm) (hk : 0 ≤ z.k) : 0 ≤ (step3 z).k := by
  unfold step3
  split_ifs <;> first
    | exact hk
    | exact step3_e_k_nonneg z hk
    | exact step3_i_k_nonneg z hk
    | exact step3_l_k_nonneg z hk
    | exact step3_s_k_nonneg z hk

theorem step3_b_len (z : Stm) : (step3 z).b.length = z.b.length := by
  unfold step3
  split_ifs <;> first
    | rfl
    | exact step3_e_b_len z
    | exact step3_i_b_len z
    | exact step3_l_b_len z
    | exact step3_s_b_len z


theorem step4_a_k_le (z : Stm) : (step4_a z).k ≤ z.k := by
  unfold step4_a
  split_ifs <;> first
    | exact le_refl _
    | exact upd_setJ_k_le _ _

theorem step4_a_k_nonneg (z : Stm) (hk : 0 ≤ z.k) : 0 ≤ (step4_a z).k := by
  unfold step4_a
  split_ifs <;> first
    | exact hk
    | (apply upd_setJ_k_nonneg <;> assumption)

theorem step4_a_b_len (z : Stm) : (step4_a z).b.length = z.b.length := by
  unfold step4_a
  split_ifs <;> simp [upd_b, setJ_b]


theorem step4_c_k_le (z : Stm) : (step4_c z).k ≤ z.k := by
  unfold step4_c
  split_ifs <;> first
    | exact le_refl _
    | exact upd_setJ_k_le _ _

theorem step4_c_k_nonneg (z : Stm) (hk : 0 ≤ z.k) : 0 ≤ (step4_c z).k := by
  unfold step4_c
  split_ifs <;> first
    | exact hk
    | (apply upd_setJ_k_nonneg <;> assumption)

theorem step4_c_b_len (z : Stm) : (step4_c z).b.length = z.b.length := by
  unfold step4_c
  split_ifs <;> simp [upd_b, setJ_b]


theorem step4_e_k_le (z : Stm) : (step4_e z).k ≤ z.k := by
  unfold step4_e
  split_ifs <;> first
    | exact le_refl _
    | exact upd_setJ_k_le _ _

theorem step4_e_k_nonneg (z : Stm) (hk : 0 ≤ z.k) : 0 ≤ (step4_e z).k := by
  unfold step4_e
  split_ifs <;> first
    | exact hk
    | (apply upd_setJ_k_nonneg <;> assumption)

theorem step4_e_b_len (z : Stm) : (step4_e z).b.length = z.b.length := by
  unfold step4_e
  split_ifs <;> simp [upd_b, setJ_b]


theorem step4_i_k_le (z : Stm) : (step4_i z).k ≤ z.k := by
  unfold step4_i
  split_ifs <;> first
    | exact le_refl _
    | exact upd_setJ_k_le _ _

theorem step4_i_k_nonneg (z : Stm) (hk : 0 ≤ z.k) : 0 ≤ (step4_i z).k := by
  unfold step4_i
  split_ifs <;> first
    | exact hk
    | (apply upd_setJ_k_nonneg <;> assumption)

theorem step4_i_b_len (z : Stm) : (step4_i z).b.length = z.b.length := by
  unfold step4_i
  split_ifs <;> simp [upd_b, setJ_b]


theorem step4_l_k_le (z : Stm) : (step4_l z).k ≤ z.k := by
  unfold step4_l
  split_ifs <;> first
    | exact le_refl _
    | exact upd_setJ_k_le _ _

theorem step4_l_k_nonneg (z : Stm) (hk : 0 ≤ z.k) : 0 ≤ (step4_l z).k := by
  unfold step4_l
  split_ifs <;> first
    | exact hk
    | (apply upd_setJ_k_nonneg <;> assumption)

theorem step4_l_b_len (z : Stm) : (step4_l z).b.length = z.b.length := by
  unfold step4_l
  split_ifs <;> simp [upd_b, setJ_b]


theorem step4_n_k_le (z : Stm) : (step4_n z).k ≤ z.k := by
  unfold step4_n
  split_ifs <;> first
    | exact le_refl _
    | exact upd_setJ_k_le _ _

theorem step4_n_k_nonneg (z : Stm) (hk : 0 ≤ z.k) : 0 ≤ (step4_n z).k := by
  unfold step4_n
  split_ifs <;> first
    | exact hk
    | (apply upd_setJ_k_nonneg <;> assumption)

theorem step4_n_b_len (z : Stm) : (step4_n z).b.length = z.b.length := by
  unfold step4_n
  split_ifs <;> simp [upd_b, setJ_b]


theorem step4_s_k_le (z : Stm) : (step4_s z).k ≤ z.k := by
  unfold step4_s
  split_ifs <;> first
    | exact le_refl _
    | exact upd_setJ_k_le _ _

theorem step4_s_k_nonneg (z : Stm) (hk : 0 ≤ z.k) : 0 ≤ (step4_s z).k := by
  unfold step4_s
  split_ifs <;> first
    | exact hk
    | (apply upd_setJ_k_nonneg <;> assumption)

theorem step4_s_b_len (z : Stm) : (step4_s z).b.length = z.b.length := by
  unfold step4_s
  split_ifs <;> simp [upd_b, setJ_b]


theorem step4_t_k_le (z : Stm) : (step4_t z).k ≤ z.k := by
  unfold step4_t
  split_ifs <;> first
    | exact le_refl _
    | exact upd_setJ_k_le _ _

theorem step4_t_k_nonneg (z : Stm) (hk : 0 ≤ z.k) : 0 ≤ (step4_t z).k := by
  unfold step4_t
  split_ifs <;> first
    | exact hk
    | (apply upd_setJ_k_nonneg <;> assumption)

theorem step4_t_b_len (z : Stm) : (step4_t z).b.length = z.b.length := by
  unfold step4_t
  split_ifs <;> simp [upd_b, setJ_b]


theorem step4_u_k_le (z : Stm) : (step4_u z).k ≤ z.k := by
  unfold step4_u
  split_ifs <;> first
    | exact le_refl _
    | exact upd_setJ_k_le _ _

theorem step4_u_k_nonneg (z : Stm) (hk : 0 ≤ z.k) : 0 ≤ (step4_u z).k := by
  unfold step4_u
  split_ifs <;> first
    | exact hk
    | (apply upd_setJ_k_nonneg <;> assumption)

theorem step4_u_b_len (z : Stm) : (step4_u z).b.length = z.b.length := by
  unfold step4_u
  split_ifs <;> simp [upd_b, setJ_b]


theorem step4_v_k_le (z : Stm) : (step4_v z).k ≤ z.k := by
  unfold step4_v
  split_ifs <;> first
    | exact le_refl _
    | exact upd_setJ_k_le _ _

theorem step4_v_k_nonneg (z : Stm) (hk : 0 ≤ z.k) : 0 ≤ (step4_v z).k := by
  unfold step4_v
  split_ifs <;> first
    | exact hk
    | (apply upd_setJ_k_nonneg <;> assumption)

theorem step4_v_b_len (z : Stm) : (step4_v z).b.length = z.b.length := by
  unfold step4_v
  split_ifs <;> simp [upd_b, setJ_b]


theorem step4_z_k_le (z : Stm) : (step4_z z).k ≤ z.k := by
  unfold step4_z
  split_ifs <;> first
    | exact le_refl _
    | exact upd_setJ_k_le _ _

theorem step4_z_k_nonneg (z : Stm) (hk : 0 ≤ z.k) : 0 ≤ (step4_z z).k := by
  unfold step4_z
  split_ifs <;> first
    | exact hk
    | (apply upd_setJ_k_nonneg <;> assumption)

theorem step4_z_b_len (z : Stm) : (step4_z z).b.length = z.b.length := by
  unfold step4_z
  split_ifs <;> simp [upd_b, setJ_b]


theorem step4_o2_k_le (z1 : Stm) : (step4_o2 z1).k ≤ z1.k := by
  unfold step4_o2
  split_ifs <;> first
    | exact upd_setJ_k_le _ _
    | exact le_refl _

theorem step4_o2_k_nonneg (z1 : Stm) (hk : 0 ≤ z1.k) : 0 ≤ (step4_o2 z1).k := by
  unfold step4_o2
  split_ifs <;> first
    | (apply upd_setJ_k_nonneg <;> assumption)
    | exact hk

theorem step4_o2_b_len (z1 : Stm) : (step4_o2 z1).b.length = z1.b.length := by
  unfold step4_o2
  split_ifs <;> simp [upd_b, setJ_b]

theorem step4_o_k_le (z : Stm) : (step4_o z).k ≤ z.k := by
  unfold step4_o
  refine le_trans (step4_o2_k_le _) ?_
  split
  · exact upd_setJ_k_le _ _
  · exact le_refl _

theorem step4_o_k_nonneg (z : Stm) (hk : 0 ≤ z.k) : 0 ≤ (step4_o z).k := by
  unfold step4_o
  apply step4_o2_k_nonneg
  split
  · (apply upd_setJ_k_nonneg <;> assumption)
  · exact hk

theorem step4_o_b_len (z : Stm) : (step4_o z).b.length = z.b.length := by
  unfold step4_o
  rw [step4_o2_b_len]
  split <;> simp [upd_b, setJ_b]


theorem step4_k_le (z : Stm) : (step4 z).k ≤ z.k := by
  rw [step4]
  by_cases h0 : z.k = 0
  · rw [if_pos h0]
  · rw [if_neg h0]
    by_cases h1 : getc z.b (z.k - 1) = 'a'
    · rw [if_pos h1]
      exact step4_a_k_le z
    · rw [if_neg h1]
      by_cases h2 : getc z.b (z.k - 1) = 'c'
      · rw [if_pos h2]
        exact step4_c_k_le z
      · rw [if_neg h2]
        by_cases h3 : getc z.b (z.k - 1) = 'e'
        · rw [if_pos h3]
          exact step4_e_k_le z
        · rw [if_neg h3]
          by_cases h4 : getc z.b (z.k - 1) = 'i'
          · rw [if_pos h4]
            exact step4_i_k_le z
          · rw [if_neg h4]
            by_cases h5 : getc z.b (z.k - 1) = 'l'
            · rw [if_pos h5]
              exact step4_l_k_le z
            · rw [if_neg h5]
              by_cases h6 : getc z.b (z.k - 1) = 'n'
              · rw [if_pos h6]
                exact step4_n_k_le z
              · rw [if_neg h6]
                by_cases h7 : getc z.b (z.k - 1) = 'o'
                · rw [if_pos h7]
                  exact step4_o_k_le z
                · rw [if_neg h7]
                  by_cases h8 : getc z.b (z.k - 1) = 's'
                  · rw [if_pos h8]
                    exact step4_s_k_le z
                  · rw [if_neg h8]
                    by_cases h9 : getc z.b (z.k - 1) = 't'
                    · rw [if_pos h9]
                      exact step4_t_k_le z
                    · rw [if_neg h9]
                      by_cases h10 : getc z.b (z.k - 1) = 'u'
                      · rw [if_pos h10]
                        exact step4_u_k_le z
                      · rw [if_neg h10]
                        by_cases h11 : getc z.b (z.k - 1) = 'v'
                        · rw [if_pos h11]
                          exact step4_v_k_le z
                        · rw [if_neg h11]
                          by_cases h12 : getc z.b (z.k - 1) = 'z'
                          · rw [if_pos h12]
                            exact step4_z_k_le z
                          · rw [if_neg h12]

theorem step4_k_nonneg (z : Stm) (hk : 0 ≤ z.k) : 0 ≤ (step4 z).k := by
  rw [step4]
  by_cases h0 : z.k = 0
  · rw [if_pos h0]
    exact hk
  · rw [if_neg h0]
    by_cases h1 : getc z.b (z.k - 1) = 'a'
    · rw [if_pos h1]
      exact step4_a_k_nonneg z hk
    · rw [if_neg h1]
      by_cases h2 : getc z.b (z.k - 1) = 'c'
      · rw [if_pos h2]
        exact step4_c_k_nonneg z hk
      · rw [if_neg h2]
        by_cases h3 : getc z.b (z.k - 1) = 'e'
        · rw [if_pos h3]
          exact step4_e_k_nonneg z hk
        · rw [if_neg h3]
          by_cases h4 : getc z.b (z.k - 1) = 'i'
          · rw [if_pos h4]
            exact step4_i_k_nonneg z hk
          · rw [if_neg h4]
            by_cases h5 : getc z.b (z.k - 1) = 'l'
            · rw [if_pos h5]
              exact step4_l_k_nonneg z hk
            · rw [if_neg h5]
              by_cases h6 : getc z.b (z.k - 1) = 'n'
              · rw [if_pos h6]
                exact step4_n_k_nonneg z hk
              · rw [if_neg h6]
                by_cases h7 : getc z.b (z.k - 1) = 'o'
                · rw [if_pos h7]
                  exact step4_o_k_nonneg z hk
                · rw [if_neg h7]
                  by_cases h8 : getc z.b (z.k - 1) = 's'
                  · rw [if_pos h8]
                    exact step4_s_k_nonneg z hk
                  · rw [if_neg h8]
                    by_cases h9 : getc z.b (z.k - 1) = 't'
                    · rw [if_pos h9]
                      exact step4_t_k_nonneg z hk
                    · rw [if_neg h9]
                      by_cases h10 : getc z.b (z.k - 1) = 'u'
                      · rw [if_pos h10]
                        exact step4_u_k_nonneg z hk
                      · rw [if_neg h10]
                        by_cases h11 : getc z.b (z.k - 1) = 'v'
                        · rw [if_pos h11]
                          exact step4_v_k_nonneg z hk
                        · rw [if_neg h11]
                          by_cases h12 : getc z.b (z.k - 1) = 'z'
                          · rw [if_pos h12]
                            exact step4_z_k_nonneg z hk
                          · rw [if_neg h12]
                            exact hk

theorem step4_b_len (z : Stm) : (step4 z).b.length = z.b.length := by
  rw [step4]
  by_cases h0 : z.k = 0
  · rw [if_pos h0]
  · rw [if_neg h0]
    by_cases h1 : getc z.b (z.k - 1) = 'a'
    · rw [if_pos h1]
      exact step4_a_b_len z
    · rw [if_neg h1]
      by_cases h2 : getc z.b (z.k - 1) = 'c'
      · rw [if_pos h2]
        exact step4_c_b_len z
      · rw [if_neg h2]
        by_cases h3 : getc z.b (z.k - 1) = 'e'
        · rw [if_pos h3]
          exact step4_e_b_len z
        · rw [if_neg h3]
          by_cases h4 : getc z.b (z.k - 1) = 'i'
          · rw [if_pos h4]
            exact step4_i_b_len z
          · rw [if_neg h4]
            by_cases h5 : getc z.b (z.k - 1) = 'l'
            · rw [if_pos h5]
              exact step4_l_b_len z
            · rw [if_neg h5]
              by_cases h6 : getc z.b (z.k - 1) = 'n'
              · rw [if_pos h6]
                exact step4_n_b_len z
              · rw [if_neg h6]
                by_cases h7 : getc z.b (z.k - 1) = 'o'
                · rw [if_pos h7]
                  exact step4_o_b_len z
                · rw [if_neg h7]
                  by_cases h8 : getc z.b (z.k - 1) = 's'
                  · rw [if_pos h8]
                    exact step4_s_b_len z
                  · rw [if_neg h8]
                    by_cases h9 : getc z.b (z.k - 1) = 't'
                    · rw [if_pos h9]
                      exact step4_t_b_len z
                    · rw [if_neg h9]
                      by_cases h10 : getc z.b (z.k - 1) = 'u'
                      · rw [if_pos h10]
                        exact step4_u_b_len z
                      · rw [if_neg h10]
                        by_cases h11 : getc z.b (z.k - 1) = 'v'
                        · rw [if_pos h11]
                          exact step4_v_b_len z
                        · rw [if_neg h11]
                          by_cases h12 : getc z.b (z.k - 1) = 'z'
                          · rw [if_pos h12]
                            exact step4_z_b_len z
                          · rw [if_neg h12]

theorem step1a_k_le (z : Stm) : (step1a z).k ≤ z.k := by
  unfold step1a
  split_ifs with hs h2 h3 h4
  · show z.k - 2 ≤ z.k
    omega
  · rw [setto_k, setJ_j]
    simp only [sIES, sI, List.length_cons, List.length_nil]
    omega
  · show z.k - 1 ≤ z.k
    omega
  · exact le_refl _
  · exact le_refl _

theorem step1a_k_ge1 (z : Stm) (hk : 2 ≤ z.k) : 1 ≤ (step1a z).k := by
  unfold step1a
  split_ifs with hs h2 h3 h4
  · have h := endsB_le h2
    simp only [sSSES, List.length_cons, List.length_nil] at h
    show (1 : Int) ≤ z.k - 2
    omega
  · have h := endsB_le h3
    simp only [sIES, List.length_cons, List.length_nil] at h
    rw [setto_k, setJ_j]
    simp only [sIES, sI, List.length_cons, List.length_nil]
    omega
  · show (1 : Int) ≤ z.k - 1
    omega
  · omega
  · omega

theorem step1a_b_len (z : Stm) : (step1a z).b.length = z.b.length := by
  unfold step1a
  split_ifs <;> simp [setto_b_len, setJ_b]

theorem step1b_core_k_le (z2 : Stm) (hj : z2.j = z2.k) :
    (step1b_core z2).k ≤ z2.k + 1 := by
  unfold step1b_core
  split_ifs with h1 h2 h3 h4 h5 h6
  · rw [setto_k, setJ_j]
    simp only [sAT, sATE, List.length_cons, List.length_nil]
    omega
  · rw [setto_k, setJ_j]
    simp only [sBL, sBLE, List.length_cons, List.length_nil]
    omega
  · rw [setto_k, setJ_j]
    simp only [sIZ, sIZE, List.length_cons, List.length_nil]
    omega
  · omega
  · show z2.k - 1 ≤ z2.k + 1
    omega
  · rw [setto_k, hj]
    simp only [sE, List.length_cons, List.length_nil]
    omega
  · omega

theorem step1b_core_k_nonneg (z2 : Stm) (hj : z2.j = z2.k) (hk : 0 ≤ z2.k) :
    0 ≤ (step1b_core z2).k := by
  unfold step1b_core
  split_ifs with h1 h2 h3 h4 h5 h6
  · have h := endsB_le h1
    simp only [sAT, List.length_cons, List.length_nil] at h
    rw [setto_k, setJ_j]
    simp only [sAT, sATE, List.length_cons, List.length_nil]
    omega
  · have h := endsB_le h2
    simp only [sBL, List.length_cons, List.length_nil] at h
    rw [setto_k, setJ_j]
    simp only [sBL, sBLE, List.length_cons, List.length_nil]
    omega
  · have h := endsB_le h3
    simp only [sIZ, List.length_cons, List.length_nil] at h
    rw [setto_k, setJ_j]
    simp only [sIZ, sIZE, List.length_cons, List.length_nil]
    omega
  · exact hk
  · have h := doublec_ge_one h4
    show (0 : Int) ≤ z2.k - 1
    omega
  · rw [setto_k, hj]
    simp only [sE, List.length_cons, List.length_nil]
    omega
  · exact hk

theorem step1b_core_b_len (z2 : Stm) :
    (step1b_core z2).b.length = z2.b.length := by
  unfold step1b_core
  split_ifs <;> simp [setto_b_len, setJ_b]

theorem step1b_k_le (z : Stm) : (step1b z).k ≤ z.k := by
  unfold step1b
  split_ifs with h1 h2 h3 h4 h5 h6
  · show z.k - 1 ≤ z.k
    omega
  · exact le_of_eq (setJ_k _ _)
  · have hc := step1b_core_k_le { setJ z sED with k := z.k - (sED.length : Int) } rfl
    simp only [sED, List.length_cons, List.length_nil] at hc ⊢
    omega
  · exact le_of_eq (setJ_k _ _)
  · have hc := step1b_core_k_le { setJ z sING with k := z.k - (sING.length : Int) } rfl
    simp only [sING, List.length_cons, List.length_nil] at hc ⊢
    omega
  · exact le_of_eq (setJ_k _ _)
  · exact le_refl _

theorem step1b_k_nonneg (z : Stm) (hk : 0 ≤ z.k) : 0 ≤ (step1b z).k := by
  unfold step1b
  split_ifs with h1 h2 h3 h4 h5 h6
  · have h := endsB_le h1
    simp only [sEED, List.length_cons, List.length_nil] at h
    show (0 : Int) ≤ z.k - 1
    omega
  · rw [setJ_k]
    exact hk
  · have h := endsB_le h3
    simp only [sED, List.length_cons, List.length_nil] at h
    have hc := step1b_core_k_nonneg { setJ z sED with k := z.k - (sED.length : Int) } rfl
      (by simp only [sED, List.length_cons, List.length_nil]; omega)
    simpa using hc
  · rw [setJ_k]
    exact hk
  · have h := endsB_le h5
    simp only [sING, List.length_cons, List.length_nil] at h
    have hc := step1b_core_k_nonneg { setJ z sING with k := z.k - (sING.length : Int) } rfl
      (by simp only [sING, List.length_cons, List.length_nil]; omega)
    simpa using hc
  · rw [setJ_k]
    exact hk
  · exact hk

theorem step1b_b_len (z : Stm) : (step1b z).b.length = z.b.length := by
  unfold step1b
  split_ifs <;> first
    | rfl
    | (rw [step1b_core_b_len]; rfl)

theorem step1ab_k_le (z : Stm) : (step1ab z).k ≤ z.k :=
  le_trans (step1b_k_le _) (step1a_k_le z)

theorem step1ab_k_nonneg (z : Stm) (hk : 2 ≤ z.k) : 0 ≤ (step1ab z).k :=
  step1b_k_nonneg _ (le_trans (by omega) (step1a_k_ge1 z hk))

theorem step1ab_b_len (z : Stm) : (step1ab z).b.length = z.b.length := by
  unfold step1ab
  rw [step1b_b_len, step1a_b_len]

theorem step1c_k (z : Stm) : (step1c z).k = z.k := by
  unfold step1c
  split_ifs <;> rfl

theorem step1c_b_len (z : Stm) : (step1c z).b.length = z.b.length := by
  unfold step1c
  split_ifs <;> simp [setJ]

theorem step5_e_k_le (z0 : Stm) : (step5_e z0).k ≤ z0.k := by
  unfold step5_e
  split_ifs
  · show z0.k - 1 ≤ z0.k
    omega
  · exact le_refl _
  · exact le_refl _

theorem step5_e_k_nonneg (z0 : Stm) (hj : z0.j = z0.k) (hk : 0 ≤ z0.k) :
    0 ≤ (step5_e z0).k := by
  unfold step5_e
  split_ifs with h1 h2
  · have hm : 0 < m z0.b z0.j := by
      rcases h2 with h | h
      · omega
      · omega
    have := m_pos_j hm
    show (0 : Int) ≤ z0.k - 1
    omega
  · exact hk
  · exact hk

theorem step5_e_j (z0 : Stm) : (step5_e z0).j = z0.j := by
  unfold step5_e
  split_ifs <;> rfl

theorem step5_e_b (z0 : Stm) : (step5_e z0).b = z0.b := by
  unfold step5_e
  split_ifs <;> rfl

theorem step5_l_k_le (z1 : Stm) : (step5_l z1).k ≤ z1.k := by
  unfold step5_l
  split_ifs
  · show z1.k - 1 ≤ z1.k
    omega
  · exact le_refl _

theorem step5_l_k_nonneg (z1 : Stm) (hk : 0 ≤ z1.k) : 0 ≤ (step5_l z1).k := by
  unfold step5_l
  split_ifs with h
  · have := doublec_ge_one h.2.1
    show (0 : Int) ≤ z1.k - 1
    omega
  · exact hk

theorem step5_l_b (z1 : Stm) : (step5_l z1).b = z1.b := by
  unfold step5_l
  split_ifs <;> rfl

theorem step5_k_le (z : Stm) : (step5 z).k ≤ z.k := by
  unfold step5
  exact le_trans (step5_l_k_le _) (step5_e_k_le _)

theorem step5_k_nonneg (z : Stm) (hk : 0 ≤ z.k) : 0 ≤ (step5 z).k := by
  unfold step5
  exact step5_l_k_nonneg _ (step5_e_k_nonneg _ rfl hk)

theorem step5_b_len (z : Stm) : (step5 z).b.length = z.b.length := by
  unfold step5
  rw [step5_l_b, step5_e_b]

/-! Bounds on the end index returned by `stem`. -/

theorem stemRun_b_len (b : List Char) : (stemRun b).b.length = b.length := by
  unfold stemRun
  split
  · rw [step5_b_len, step4_b_len, step3_b_len, step2_b_len, step1c_b_len, step1ab_b_len]
  · rfl

theorem stemK_le (b : List Char) : stemK b ≤ (b.length : Int) - 1 := by
  unfold stemK stemRun
  split
  · calc (step5 (step4 (step3 (step2 (step1c (step1ab
            { b := b, j := 0, k := (b.length : Int) - 1 })))))).k
        ≤ (step4 (step3 (step2 (step1c (step1ab
            { b := b, j := 0, k := (b.length : Int) - 1 }))))).k := step5_k_le _
      _ ≤ (step3 (step2 (step1c (step1ab
            { b := b, j := 0, k := (b.length : Int) - 1 })))).k := step4_k_le _
      _ ≤ (step2 (step1c (step1ab
            { b := b, j := 0, k := (b.length : Int) - 1 }))).k := step3_k_le _
      _ ≤ (step1c (step1ab { b := b, j := 0, k := (b.length : Int) - 1 })).k :=
            step2_k_le _
      _ ≤ (step1ab { b := b, j := 0, k := (b.length : Int) - 1 }).k :=
            le_of_eq (step1c_k _)
      _ ≤ (b.length : Int) - 1 := step1ab_k_le _
  · exact le_refl _

theorem stemK_nonneg (b : List Char) (hb : b ≠ []) : 0 ≤ stemK b := by
  unfold stemK stemRun
  have hlen : 1 ≤ b.length := List.length_pos.mpr hb
  split
  · next hgt =>
    have h1 : 0 ≤ (step1ab { b := b, j := 0, k := (b.length : Int) - 1 }).k :=
      step1ab_k_nonneg _ (by show (2 : Int) ≤ (b.length : Int) - 1; omega)
    have h2 : 0 ≤ (step1c (step1ab
        { b := b, j := 0, k := (b.length : Int) - 1 })).k := by
      rw [step1c_k]
      exact h1
    exact step5_k_nonneg _ (step4_k_nonneg _ (step3_k_nonneg _ (step2_k_nonneg _ h2)))
  · show (0 : Int) ≤ (b.length : Int) - 1
    omega

theorem mapSelf {w : List Char} {f : Char → Char} (h : ∀ c ∈ w, f c = c) :
    w.map f = w := by
  induction w with
  | nil => rfl
  | cons a t ih =>
    simp only [List.map_cons, h a (by simp)]
    rw [ih (fun c hc => h c (by simp [hc]))]

theorem stemRun_short (b : List Char) (hb : b.length ≤ 2) :
    stemRun b = { b := b, j := 0, k := (b.length : Int) - 1 } := by
  unfold stemRun
  rw [if_neg (by omega)]

/-- C1: non-growth is an invariant of every stage and of the whole
operation: each of the six stage functions never increases the end index
`k`, and the end index returned by `stem` satisfies `k' ≤ len(b) - 1`
always, with `0 ≤ k'` for every non-empty buffer — so stemming never
lengthens a word. -/
theorem C1_nongrowth :
    (∀ z : Stm, (step1ab z).k ≤ z.k) ∧ (∀ z : Stm, (step1c z).k ≤ z.k) ∧
    (∀ z : Stm, (step2 z).k ≤ z.k) ∧ (∀ z : Stm, (step3 z).k ≤ z.k) ∧
    (∀ z : Stm, (step4 z).k ≤ z.k) ∧ (∀ z : Stm, (step5 z).k ≤ z.k) ∧
    (∀ b : List Char, stemK b ≤ (b.length : Int) - 1) ∧
    (∀ b : List Char, b ≠ [] → 0 ≤ stemK b) :=
  ⟨step1ab_k_le, fun z => le_of_eq (step1c_k z), step2_k_le, step3_k_le,
   step4_k_le, step5_k_le, stemK_le, stemK_nonneg⟩

/-- C1 witness: the bounds instantiated on the concrete buffer `cats`. -/
theorem C1_nongrowth_witness :
    wCats ≠ [] ∧ 0 ≤ stemK wCats ∧ stemK wCats ≤ (wCats.length : Int) - 1 :=
  ⟨by decide, C1_nongrowth.2.2.2.2.2.2.2 wCats (by decide),
   C1_nongrowth.2.2.2.2.2.2.1 wCats⟩

/-- C10: the public entry points never fail: `Stem` and `StemBytes` return
a value (`none` models the `ErrInvalidInput` branch, which is unreachable),
the empty input gives an empty result, and for non-empty buffers the end
index returned by `stem` satisfies `0 ≤ k' < len(b)`. -/
theorem C10_no_error :
    (∀ w : List Char, (Stem w).isSome = true) ∧
    (∀ b : List Char, (StemBytes b).isSome = true) ∧
    Stem [] = some [] ∧ StemBytes [] = some [] ∧
    (∀ b : List Char, b ≠ [] → 0 ≤ stemK b ∧ stemK b < (b.length : Int)) := by
  refine ⟨?_, ?_, rfl, rfl, ?_⟩
  · intro w
    by_cases hw : w = []
    · simp [Stem, hw]
    · have hmap : w.map asciiLower ≠ [] := by simpa using hw
      have h0 : 0 ≤ (stemRun (w.map asciiLower)).k := stemK_nonneg _ hmap
      have h1 : (stemRun (w.map asciiLower)).k ≤ ((w.map asciiLower).length : Int) - 1 :=
        stemK_le _
      have hcond : 0 ≤ (stemRun (w.map asciiLower)).k ∧
          (stemRun (w.map asciiLower)).k < ((stemRun (w.map asciiLower)).b.length : Int) := by
        refine ⟨h0, ?_⟩
        rw [stemRun_b_len]
        omega
      simp only [Stem, if_neg hw, if_pos hcond, Option.isSome_some]
  · intro b
    by_cases hb : b = []
    · simp [StemBytes, hb]
    · have hmap : b.map asciiLower ≠ [] := by simpa using hb
      have h0 : 0 ≤ (stemRun (b.map asciiLower)).k := stemK_nonneg _ hmap
      have h1 : (stemRun (b.map asciiLower)).k ≤ ((b.map asciiLower).length : Int) - 1 :=
        stemK_le _
      have hcond : 0 ≤ (stemRun (b.map asciiLower)).k ∧
          (stemRun (b.map asciiLower)).k < (b.length : Int) := by
        refine ⟨h0, ?_⟩
        rw [List.length_map] at h1
        omega
      simp only [StemBytes, if_neg hb, if_pos hcond, Option.isSome_some]
  · intro b hb
    have h1 := stemK_le b
    exact ⟨stemK_nonneg b hb, by omega⟩

/-- C10 witness: the internal bound instantiated on the concrete buffer
`sky`. -/
theorem C10_no_error_witness :
    wSky ≠ [] ∧ 0 ≤ stemK wSky ∧ stemK wSky < (wSky.length : Int) :=
  ⟨by decide, (C10_no_error.2.2.2.2 wSky (by decide)).1,
   (C10_no_error.2.2.2.2 wSky (by decide)).2⟩

/-- C9: the letter classifier is total: positions at or beyond the buffer
length answer "not a consonant", and `vowel` is exactly the negation of
`consonant` everywhere. -/
theorem C9_total :
    (∀ (b : List Char) (p : Nat), b.length ≤ p → consonant b p = false) ∧
    (∀ (b : List Char) (p : Nat), vowel b p = !(consonant b p)) := by
  constructor
  · intro b p hp
    cases p with
    | zero => simp [consonant, hp]
    | succ q => simp [consonant, hp]
  · intro b p
    rfl

/-- C9 witness: totality instantiated at an out-of-range position. -/
theorem C9_total_witness :
    ['a'].length ≤ 5 ∧ consonant ['a'] 5 = false ∧ vowel ['a'] 5 = !(consonant ['a'] 5) :=
  ⟨by decide, C9_total.1 ['a'] 5 (by decide), C9_total.2 ['a'] 5⟩

/-- C2 counterexample: on the buffer `by`, position 1 holds `y` and
position 0 holds the consonant `b`, yet `consonant` answers `false` at
position 1 — the code makes `y` after a consonant a vowel, while the claim
says `y` is a consonant exactly when the preceding position is one. -/
theorem C2_cex :
    ['b', 'y'].getD 1 ' ' = 'y' ∧ consonant ['b', 'y'] 0 = true ∧
      consonant ['b', 'y'] 1 = false := by
  decide

/-- C2 amended: `a,e,i,o,u` are always vowels; `y` is a consonant at
position 0 and at a later position is a consonant if and only if the
preceding position is a **vowel**; every other letter is a consonant. -/
theorem C2_y_rule :
    ∀ (b : List Char) (p : Nat), p < b.length →
      ((b.getD p ' ' = 'a' ∨ b.getD p ' ' = 'e' ∨ b.getD p ' ' = 'i' ∨
          b.getD p ' ' = 'o' ∨ b.getD p ' ' = 'u') → consonant b p = false) ∧
      (b.getD p ' ' = 'y' →
        (p = 0 → consonant b p = true) ∧
        (0 < p → consonant b p = !(consonant b (p - 1)))) ∧
      ((¬(b.getD p ' ' = 'a' ∨ b.getD p ' ' = 'e' ∨ b.getD p ' ' = 'i' ∨
          b.getD p ' ' = 'o' ∨ b.getD p ' ' = 'u') ∧ b.getD p ' ' ≠ 'y') →
        consonant b p = true) := by
  intro b p hp
  have hlen : ¬(b.length ≤ p) := by omega
  cases p with
  | zero =>
    refine ⟨fun hv => ?_, fun hy => ⟨fun _ => ?_, fun h0 => by omega⟩, fun ho => ?_⟩
    · simp only [consonant, if_neg hlen, if_pos hv]
    · simp only [consonant, if_neg hlen]
      rw [if_neg]
      intro hv
      rcases hv with h | h | h | h | h <;> rw [hy] at h <;> exact absurd h (by decide)
    · simp only [consonant, if_neg hlen, if_neg ho.1]
  | succ q =>
    refine ⟨fun hv => ?_, fun hy => ⟨fun h0 => by omega, fun _ => ?_⟩, fun ho => ?_⟩
    · simp only [consonant, if_neg hlen, if_pos hv]
    · have hnv : ¬(b.getD (q + 1) ' ' = 'a' ∨ b.getD (q + 1) ' ' = 'e' ∨
          b.getD (q + 1) ' ' = 'i' ∨ b.getD (q + 1) ' ' = 'o' ∨ b.getD (q + 1) ' ' = 'u') := by
        intro hv
        rcases hv with h | h | h | h | h <;> rw [hy] at h <;> exact absurd h (by decide)
      simp only [consonant, if_neg hlen, if_neg hnv, if_pos hy, Nat.add_sub_cancel]
    · simp only [consonant, if_neg hlen, if_neg ho.1, if_neg ho.2]

/-- C2 witness: the amended rule instantiated on the buffer `ay` (where `y`
follows a vowel and is classified as a consonant). -/
theorem C2_y_rule_witness :
    (1 : Nat) < ['a', 'y'].length ∧ ['a', 'y'].getD 1 ' ' = 'y' ∧ (0 : Nat) < 1 ∧
      consonant ['a', 'y'] 1 = !(consonant ['a', 'y'] 0) :=
  ⟨by decide, by decide, by decide,
   ((C2_y_rule ['a', 'y'] 1 (by decide)).2.1 (by decide)).2 (by decide)⟩

/-- C3: words of length at most two pass through unchanged: `stem` keeps
the end index at `len(b) - 1` (no stage runs), and `Stem` returns the word
itself for any already-lower-case word of at most two characters. -/
theorem C3_short :
    (∀ b : List Char, b.length ≤ 2 → stemK b = (b.length : Int) - 1) ∧
    (∀ w : List Char, w.length ≤ 2 → (∀ c ∈ w, asciiLower c = c) →
      Stem w = some w) := by
  constructor
  · intro b hb
    unfold stemK
    rw [stemRun_short b hb]
  · intro w hw hlow
    by_cases hnil : w = []
    · rw [hnil]
      rfl
    · have hlen : 1 ≤ w.length := List.length_pos.mpr hnil
      have hmap : w.map asciiLower = w := mapSelf hlow
      have hrun : stemRun (w.map asciiLower) =
          { b := w, j := 0, k := (w.length : Int) - 1 } := by
        rw [hmap, stemRun_short w hw]
      have hcond : 0 ≤ (stemRun (w.map asciiLower)).k ∧
          (stemRun (w.map asciiLower)).k < ((stemRun (w.map asciiLower)).b.length : Int) := by
        rw [hrun]
        constructor
        · show (0 : Int) ≤ (w.length : Int) - 1
          omega
        · show (w.length : Int) - 1 < (w.length : Int)
          omega
      simp only [Stem, if_neg hnil, if_pos hcond, hrun]
      rw [if_pos ⟨by omega, by omega⟩]
      have h2 : (((w.length : Int) - 1 + 1).toNat) = w.length := by omega
      rw [h2, List.take_length]

/-- C3 witness: the passthrough instantiated on the two-letter word `ti`. -/
theorem C3_short_witness :
    wTi.length ≤ 2 ∧ stemK wTi = (wTi.length : Int) - 1 ∧ Stem wTi = some wTi :=
  ⟨by decide, C3_short.1 wTi (by decide), C3_short.2 wTi (by decide) (by decide)⟩

/-- C8: `Stem` maps each of the spec's literal scenario inputs to its
listed output. -/
theorem C8_scenarios :
    Stem wCaresses = some wCaress ∧ Stem wPonies = some wPoni ∧
    Stem wTies = some wTi ∧ Stem wCaress = some wCaress ∧
    Stem wCats = some wCat ∧ Stem wHopping = some wHop ∧
    Stem wTanned = some wTan ∧ Stem wFalling = some wFall ∧
    Stem wHissing = some wHiss ∧ Stem wFizzed = some wFizz ∧
    Stem wFailing = some wFail ∧ Stem wFiling = some wFile ∧
    Stem wHappy = some wHappi ∧ Stem wSky = some wSky := by
  decide

/-! The measure loop agrees with the rising-edge count. -/

theorem mGo_eq (l : List Bool) :
    mGo 0 l = risingEdges true l ∧ mGo 1 l = risingEdges false l ∧
    mGo 2 l = risingEdges true l := by
  induction l with
  | nil => exact ⟨rfl, rfl, rfl⟩
  | cons c rest ih =>
    cases c <;> simp [mGo, risingEdges, ih.1, ih.2.1, ih.2.2]

/-- C5 counterexample: over the whole word, the measure of `troubles` is 2
(runs tr | ou | bl | e | s give two (vowel-run, consonant-run) pairs), not
1 as the claim lists. -/
theorem C5_cex : mW wTroubles = 2 := by decide

/-- C5 amended: `m()` equals the reference definition — the number of
complete (vowel-run, consonant-run) pairs of positions `0..j`, counted as
the rising edges of the consonant flags (with an implicit leading
consonant, so a leading consonant run is not counted) — and over the whole
word `tr` measures 0, `troubles` 2 (1 is the measure of the prefix
`trouble`), and `private` 2. -/
theorem C5_measure :
    (∀ (b : List Char) (j : Int),
      m b j = risingEdges true ((List.range ((j + 1).toNat)).map (consonant b))) ∧
    mW wTr = 0 ∧ mW wTroubles = 2 ∧ mW wPrivate = 2 := by
  refine ⟨fun b j => (mGo_eq _).1, by decide, by decide, by decide⟩

/-- C4 counterexample: on the initial state of buffer `sses` (`k = 3`), the
whole content ends with `sses` itself, yet `ends` answers false because the
suffix is as long as the content (`length > k`). -/
theorem C4_cex :
    sSSES.isSuffixOf (content zSses) = true ∧ (ends zSses sSSES).2 = false := by
  decide

/-- C4 amended: `ends(s)` succeeds iff the content `b[0..k]` ends with `s`
AND `s` is strictly shorter than the content (`len(s) ≤ k`); on success it
sets `j := k − len(s)` and on failure it leaves the state unchanged; a
suffix longer than the current word never matches. -/
theorem C4_ends :
    ∀ (z : Stm) (s : List Char),
      ((ends z s).2 = true ↔
        ((s.length : Int) ≤ z.k ∧ s.isSuffixOf (content z) = true)) ∧
      ((ends z s).2 = true → (ends z s).1 = { z with j := z.k - (s.length : Int) }) ∧
      ((ends z s).2 = false → (ends z s).1 = z) ∧
      (z.k < (s.length : Int) → (ends z s).2 = false) := by
  intro z s
  unfold ends
  by_cases h : endsB z s = true
  · rw [if_pos h]
    refine ⟨⟨fun _ => ⟨endsB_le h, endsB_sfx h⟩, fun _ => rfl⟩,
      fun _ => rfl, fun hf => absurd hf (by simp), fun hlt => ?_⟩
    exact absurd (endsB_le h) (by omega)
  · rw [if_neg h]
    refine ⟨⟨fun hf => absurd hf (by simp), fun ⟨h1, h2⟩ => ?_⟩,
      fun hf => absurd hf (by simp), fun _ => rfl, fun _ => rfl⟩
    exact absurd (by simp [endsB, h1, h2]) h

/-- C4 witness: the amended contract instantiated on the buffer `cats`
(success on the suffix `ts`, failure on `ing`, and a too-long suffix). -/
theorem C4_ends_witness :
    (ends { b := wCats, j := 0, k := 3 } ['t', 's']).1.j = 1 ∧
    (ends { b := wCats, j := 0, k := 3 } sING).1 = { b := wCats, j := 0, k := 3 } ∧
    (ends { b := wCats, j := 0, k := 1 } sING).2 = false := by
  refine ⟨?_, ?_, ?_⟩
  · rw [(C4_ends { b := wCats, j := 0, k := 3 } ['t', 's']).2.1 (by decide)]
    decide
  · exact (C4_ends _ sING).2.2.1 (by decide)
  · exact (C4_ends _ sING).2.2.2 (by decide)

/-! Reading through a `take` prefix does not change the classifiers —
these lemmas let the stage guards be phrased over the word content. -/

theorem take_getD {b : List Char} {n i : Nat} (h : i < n) (d : Char) :
    (b.take n).getD i d = b.getD i d := by
  rw [List.getD_eq_getElem?_getD, List.getD_eq_getElem?_getD,
    List.getElem?_take_of_lt h]

theorem consonant_take {b : List Char} {n : Nat} :
    ∀ {i : Nat}, i < n → consonant (b.take n) i = consonant b i := by
  intro i
  induction i with
  | zero =>
    intro h
    by_cases hl : b.length ≤ 0
    · have hl2 : (b.take n).length ≤ 0 := by
        simp only [List.length_take]
        omega
      simp only [consonant, if_pos hl, if_pos hl2]
    · have hl2 : ¬((b.take n).length ≤ 0) := by
        simp only [List.length_take]
        omega
      simp only [consonant, if_neg hl, if_neg hl2, take_getD h]
  | succ q ih =>
    intro h
    have hq : q < n := by omega
    by_cases hl : b.length ≤ q + 1
    · have hl2 : (b.take n).length ≤ q + 1 := by
        simp only [List.length_take]
        omega
      simp only [consonant, if_pos hl, if_pos hl2]
    · have hl2 : ¬((b.take n).length ≤ q + 1) := by
        simp only [List.length_take]
        omega
      simp only [consonant, if_neg hl, if_neg hl2, take_getD h, ih hq]

theorem getc_take {b : List Char} {n : Nat} {i : Int} (h0 : 0 ≤ i)
    (h : i < (n : Int)) : getc (b.take n) i = getc b i := by
  unfold getc
  rw [if_pos h0, if_pos h0, take_getD (by omega)]

theorem doublec_take {b : List Char} {n : Nat} {i : Int} (h : i < (n : Int)) :
    doublec (b.take n) i = doublec b i := by
  unfold doublec
  by_cases h1 : i < 1
  · rw [if_pos h1, if_pos h1]
  · rw [if_neg h1, if_neg h1, getc_take (by omega) h, getc_take (by omega) (by omega),
      consonant_take (by omega)]

theorem cvc_take {b : List Char} {n : Nat} {i : Int} (h : i < (n : Int)) :
    cvc (b.take n) i = cvc b i := by
  unfold cvc
  by_cases h1 : i < 2
  · rw [if_pos h1, if_pos h1]
  · rw [if_neg h1, if_neg h1, consonant_take (by omega), consonant_take (by omega),
      consonant_take (by omega), getc_take (by omega) h]

theorem m_take {b : List Char} {n : Nat} {j : Int} (h : (j + 1).toNat ≤ n) :
    m (b.take n) j = m b j := by
  unfold m
  congr 1
  apply List.map_congr_left
  intro a ha
  rw [List.mem_range] at ha
  exact consonant_take (by omega)

theorem mW_take {b : List Char} {n : Nat} (h : n ≤ b.length) :
    mW (b.take n) = m b ((n : Int) - 1) := by
  unfold mW
  have hlen : (b.take n).length = n := by
    simp only [List.length_take]
    omega
  rw [hlen, m_take (by omega)]

theorem vowelinstem_take {b : List Char} {n : Nat} {j : Int}
    (h : (j + 1).toNat ≤ n) : vowelinstem (b.take n) j = vowelinstem b j := by
  unfold vowelinstem
  apply Bool.coe_iff_coe.mp
  rw [List.any_eq_true, List.any_eq_true]
  constructor
  · rintro ⟨i, hi, hv⟩
    refine ⟨i, hi, ?_⟩
    rw [List.mem_range] at hi
    rwa [consonant_take (show i < n by omega)] at hv
  · rintro ⟨i, hi, hv⟩
    refine ⟨i, hi, ?_⟩
    rw [List.mem_range] at hi
    rwa [consonant_take (show i < n by omega)]

theorem suffix_getD {s w : List Char} (h : s.isSuffixOf w = true) {d : Nat}
    (hd : d < s.length) :
    w.getD (w.length - 1 - d) ' ' = s.getD (s.length - 1 - d) ' ' := by
  obtain ⟨t, ht⟩ := List.isSuffixOf_iff_suffix.mp h
  subst ht
  rw [List.getD_eq_getElem?_getD, List.getD_eq_getElem?_getD, List.length_append]
  rw [List.getElem?_append_right (by omega)]
  have hidx : t.length + s.length - 1 - d - t.length = s.length - 1 - d := by omega
  rw [hidx]

theorem content_length {z : Stm} (hk : 0 ≤ z.k) (hl : z.k < (z.b.length : Int)) :
    (content z).length = (z.k + 1).toNat := by
  simp only [content, List.length_take]
  omega

theorem endsB_getc {z : Stm} {s : List Char} (h : endsB z s = true) (hk : 0 ≤ z.k)
    (hl : z.k < (z.b.length : Int)) {d : Nat} (hd : d < s.length) :
    getc z.b (z.k - d) = s.getD (s.length - 1 - d) ' ' := by
  have hsf := endsB_sfx h
  have hle := endsB_le h
  have h1 := suffix_getD hsf hd
  rw [content_length hk hl] at h1
  rw [content] at h1
  rw [take_getD (by omega)] at h1
  unfold getc
  rw [if_pos (by omega : (0 : Int) ≤ z.k - d)]
  have h2 : (z.k - (d : Int)).toNat = (z.k + 1).toNat - 1 - d := by omega
  rw [h2]
  exact h1

theorem endsB_endsW {z : Stm} (hk : 0 ≤ z.k) (hl : z.k < (z.b.length : Int))
    (s : List Char) : endsB z s = endsW (content z) s := by
  unfold endsB endsW
  congr 1
  rw [content_length hk hl]
  apply decide_eq_decide.mpr
  omega


/-! `step4` never rewrites the buffer, only truncates. -/


theorem step4_a_b (z : Stm) : (step4_a z).b = z.b := by
  unfold step4_a
  split_ifs <;> simp [upd_b, setJ_b]


theorem step4_c_b (z : Stm) : (step4_c z).b = z.b := by
  unfold step4_c
  split_ifs <;> simp [upd_b, setJ_b]


theorem step4_e_b (z : Stm) : (step4_e z).b = z.b := by
  unfold step4_e
  split_ifs <;> simp [upd_b, setJ_b]


theorem step4_i_b (z : Stm) : (step4_i z).b = z.b := by
  unfold step4_i
  split_ifs <;> simp [upd_b, setJ_b]


theorem step4_l_b (z : Stm) : (step4_l z).b = z.b := by
  unfold step4_l
  split_ifs <;> simp [upd_b, setJ_b]


theorem step4_n_b (z : Stm) : (step4_n z).b = z.b := by
  unfold step4_n
  split_ifs <;> simp [upd_b, setJ_b]


theorem step4_s_b (z : Stm) : (step4_s z).b = z.b := by
  unfold step4_s
  split_ifs <;> simp [upd_b, setJ_b]


theorem step4_t_b (z : Stm) : (step4_t z).b = z.b := by
  unfold step4_t
  split_ifs <;> simp [upd_b, setJ_b]


theorem step4_u_b (z : Stm) : (step4_u z).b = z.b := by
  unfold step4_u
  split_ifs <;> simp [upd_b, setJ_b]


theorem step4_v_b (z : Stm) : (step4_v z).b = z.b := by
  unfold step4_v
  split_ifs <;> simp [upd_b, setJ_b]


theorem step4_z_b (z : Stm) : (step4_z z).b = z.b := by
  unfold step4_z
  split_ifs <;> simp [upd_b, setJ_b]


theorem step4_o2_b (z1 : Stm) : (step4_o2 z1).b = z1.b := by
  unfold step4_o2
  split_ifs <;> simp [upd_b, setJ_b]

theorem step4_o_b (z : Stm) : (step4_o z).b = z.b := by
  unfold step4_o
  rw [step4_o2_b]
  split <;> simp [upd_b, setJ_b]

theorem step4_b (z : Stm) : (step4 z).b = z.b := by
  rw [step4]
  by_cases h0 : z.k = 0
  · rw [if_pos h0]
  · rw [if_neg h0]
    by_cases h1 : getc z.b (z.k - 1) = 'a'
    · rw [if_pos h1]
      exact step4_a_b z
    · rw [if_neg h1]
      by_cases h2 : getc z.b (z.k - 1) = 'c'
      · rw [if_pos h2]
        exact step4_c_b z
      · rw [if_neg h2]
        by_cases h3 : getc z.b (z.k - 1) = 'e'
        · rw [if_pos h3]
          exact step4_e_b z
        · rw [if_neg h3]
          by_cases h4 : getc z.b (z.k - 1) = 'i'
          · rw [if_pos h4]
            exact step4_i_b z
          · rw [if_neg h4]
            by_cases h5 : getc z.b (z.k - 1) = 'l'
            · rw [if_pos h5]
              exact step4_l_b z
            · rw [if_neg h5]
              by_cases h6 : getc z.b (z.k - 1) = 'n'
              · rw [if_pos h6]
                exact step4_n_b z
              · rw [if_neg h6]
                by_cases h7 : getc z.b (z.k - 1) = 'o'
                · rw [if_pos h7]
                  exact step4_o_b z
                · rw [if_neg h7]
                  by_cases h8 : getc z.b (z.k - 1) = 's'
                  · rw [if_pos h8]
                    exact step4_s_b z
                  · rw [if_neg h8]
                    by_cases h9 : getc z.b (z.k - 1) = 't'
                    · rw [if_pos h9]
                      exact step4_t_b z
                    · rw [if_neg h9]
                      by_cases h10 : getc z.b (z.k - 1) = 'u'
                      · rw [if_pos h10]
                        exact step4_u_b z
                      · rw [if_neg h10]
                        by_cases h11 : getc z.b (z.k - 1) = 'v'
                        · rw [if_pos h11]
                          exact step4_v_b z
                        · rw [if_neg h11]
                          by_cases h12 : getc z.b (z.k - 1) = 'z'
                          · rw [if_pos h12]
                            exact step4_z_b z
                          · rw [if_neg h12]

/-! The guards of stage 5 (`step4`). -/

theorem step4_update_iff (z : Stm) (h0 : 0 ≤ z.j) (hl : z.j < (z.b.length : Int)) :
    (1 < mW (z.b.take ((z.j + 1).toNat)) → step4_update z = { z with k := z.j }) ∧
    (mW (z.b.take ((z.j + 1).toNat)) ≤ 1 → step4_update z = z) := by
  have hm : mW (z.b.take ((z.j + 1).toNat)) = m z.b z.j := by
    rw [mW_take (by omega)]
    congr 1
    omega
  constructor
  · intro h
    unfold step4_update
    rw [if_pos (by omega)]
  · intro h
    unfold step4_update
    rw [if_neg (by omega)]

theorem step4_ion (z : Stm) (hk : 0 ≤ z.k) (hl : z.k < (z.b.length : Int))
    (hion : endsB z sION = true) :
    ((getc z.b (z.k - 3) = 's' ∨ getc z.b (z.k - 3) = 't') →
      (1 < mW (z.b.take ((z.k - 2).toNat)) →
        (step4 z).k = z.k - 3 ∧ (step4 z).b = z.b) ∧
      (mW (z.b.take ((z.k - 2).toNat)) ≤ 1 →
        (step4 z).k = z.k ∧ (step4 z).b = z.b)) ∧
    (¬(getc z.b (z.k - 3) = 's' ∨ getc z.b (z.k - 3) = 't') →
      (step4 z).k = z.k ∧ (step4 z).b = z.b) := by
  have h3 : (3 : Int) ≤ z.k := by
    have := endsB_le hion
    simpa [sION] using this
  have hcn : getc z.b z.k = 'n' := by
    have h := endsB_getc hion hk hl (d := 0) (by simp [sION])
    simpa [sION] using h
  have hco : getc z.b (z.k - 1) = 'o' := by
    have h := endsB_getc hion hk hl (d := 1) (by simp [sION])
    simpa [sION] using h
  have hou : ¬(endsB z sOU = true) := by
    intro hou
    have h := endsB_getc hou hk hl (d := 0) (by simp [sOU])
    rw [show z.k - ((0 : Nat) : Int) = z.k by omega] at h
    rw [hcn] at h
    simp [sOU] at h
  have hstep : step4 z = step4_o z := by
    rw [step4]
    rw [if_neg (show ¬(z.k = 0) by omega),
      if_neg (show ¬(getc z.b (z.k - 1) = 'a') by rw [hco]; decide),
      if_neg (show ¬(getc z.b (z.k - 1) = 'c') by rw [hco]; decide),
      if_neg (show ¬(getc z.b (z.k - 1) = 'e') by rw [hco]; decide),
      if_neg (show ¬(getc z.b (z.k - 1) = 'i') by rw [hco]; decide),
      if_neg (show ¬(getc z.b (z.k - 1) = 'l') by rw [hco]; decide),
      if_neg (show ¬(getc z.b (z.k - 1) = 'n') by rw [hco]; decide),
      if_pos hco]
  have hsl : ((sION.length : Nat) : Int) = 3 := by norm_num [sION]
  have hmeq : mW (z.b.take ((z.k - 2).toNat)) = m z.b (z.k - 3) := by
    rw [mW_take (by omega)]
    congr 1
    omega
  rw [hstep]
  unfold step4_o
  rw [if_neg hou]
  unfold step4_o2
  rw [if_pos hion, hsl]
  constructor
  · intro hst
    rw [if_pos hst]
    constructor
    · intro hm
      unfold step4_update
      rw [if_pos (show 1 < m (setJ z sION).b (setJ z sION).j by
        rw [setJ_b, setJ_j, hsl]
        omega)]
      constructor
      · show (setJ z sION).j = z.k - 3
        rw [setJ_j, hsl]
      · rfl
    · intro hm
      unfold step4_update
      rw [if_neg (show ¬(1 < m (setJ z sION).b (setJ z sION).j) by
        rw [setJ_b, setJ_j, hsl]
        omega)]
      exact ⟨setJ_k z sION, rfl⟩
  · intro hst
    rw [if_neg hst]
    exact ⟨setJ_k z sION, rfl⟩

/-- C7: in stage 5 (`step4`), a matched suffix truncates to the suffix
boundary only when the measure of the prefix ending at that boundary
exceeds 1 (via `step4_update`), the `ion` rule additionally requires the
letter just before the suffix to be `s` or `t`, a failed guard leaves the
word unchanged, and `step4` never rewrites buffer bytes. -/
theorem C7_step4 :
    (∀ z : Stm, (step4 z).b = z.b) ∧
    (∀ z : Stm, 0 ≤ z.j → z.j < (z.b.length : Int) →
      (1 < mW (z.b.take ((z.j + 1).toNat)) → step4_update z = { z with k := z.j }) ∧
      (mW (z.b.take ((z.j + 1).toNat)) ≤ 1 → step4_update z = z)) ∧
    (∀ z : Stm, 0 ≤ z.k → z.k < (z.b.length : Int) → endsB z sION = true →
      ((getc z.b (z.k - 3) = 's' ∨ getc z.b (z.k - 3) = 't') →
        (1 < mW (z.b.take ((z.k - 2).toNat)) →
          (step4 z).k = z.k - 3 ∧ (step4 z).b = z.b) ∧
        (mW (z.b.take ((z.k - 2).toNat)) ≤ 1 →
          (step4 z).k = z.k ∧ (step4 z).b = z.b)) ∧
      (¬(getc z.b (z.k - 3) = 's' ∨ getc z.b (z.k - 3) = 't') →
        (step4 z).k = z.k ∧ (step4 z).b = z.b)) :=
  ⟨step4_b, step4_update_iff, step4_ion⟩

/-- C7 witness: on the buffer `adoration` (ends in `ion` after `t`, and the
prefix `adorat` has measure 3 > 1), `step4` truncates to `adorat`; the
`step4_update` guard is also instantiated there. -/
theorem C7_step4_witness :
    ((step4 zAdoration).k = zAdoration.k - 3 ∧ (step4 zAdoration).b = zAdoration.b) ∧
    step4_update { b := wAdoration, j := 5, k := 8 } =
      { b := wAdoration, j := 5, k := 5 } := by
  constructor
  · exact ((C7_step4.2.2 zAdoration (by decide) (by decide) (by decide)).1
      (by decide)).1 (by decide)
  · exact (C7_step4.2.1 { b := wAdoration, j := 5, k := 8 } (by decide)
      (by decide)).1 (by decide)

/-! Content-level view of the rewrite primitives. -/

theorem setto_content (z : Stm) (s : List Char) (h0 : 0 ≤ z.j)
    (hfit : z.j + (s.length : Int) < (z.b.length : Int)) :
    content (setto z s) = z.b.take ((z.j + 1).toNat) ++ s := by
  unfold setto content listCopy
  rw [List.take_of_length_le (show s.length ≤ z.b.length - (z.j + 1).toNat by omega)]
  rw [show ((z.j + (s.length : Int)) + 1).toNat = (z.j + 1).toNat + s.length by omega]
  rw [List.take_append_eq_append_take, List.take_append_eq_append_take]
  rw [List.take_of_length_le (show (z.b.take ((z.j + 1).toNat)).length ≤
      (z.j + 1).toNat + s.length by simp only [List.length_take]; omega)]
  rw [List.take_of_length_le (show s.length ≤
      (z.j + 1).toNat + s.length - (z.b.take ((z.j + 1).toNat)).length by
        simp only [List.length_take]; omega)]
  rw [show (z.j + 1).toNat + s.length - (z.b.take ((z.j + 1).toNat) ++ s).length = 0 by
      simp only [List.length_append, List.length_take]; omega]
  rw [List.take_zero, List.append_nil]

theorem content_take {z : Stm} (hk : 0 ≤ z.k) (hl : z.k < (z.b.length : Int))
    (d : Nat) :
    (content z).take ((content z).length - d) = z.b.take (((z.k + 1).toNat) - d) := by
  rw [content_length hk hl, content, List.take_take]
  congr 1
  omega

theorem wordHasVowel_take {b : List Char} {n : Nat} (h : n ≤ b.length) :
    wordHasVowel (b.take n) = vowelinstem b ((n : Int) - 1) := by
  unfold wordHasVowel vowelinstem
  have hlen : (b.take n).length = n := by
    simp only [List.length_take]
    omega
  rw [hlen, show (((n : Int) - 1) + 1).toNat = n by omega]
  apply Bool.coe_iff_coe.mp
  rw [List.any_eq_true, List.any_eq_true]
  constructor
  · rintro ⟨i, hi, hv⟩
    refine ⟨i, hi, ?_⟩
    rw [List.mem_range] at hi
    rwa [consonant_take (show i < n by omega)] at hv
  · rintro ⟨i, hi, hv⟩
    refine ⟨i, hi, ?_⟩
    rw [List.mem_range] at hi
    rwa [consonant_take (show i < n by omega)]

/-- The at/bl/iz corrections: removing the matched two-letter suffix and
writing the three-letter replacement appends it after the two dropped
letters of the content. -/
theorem core_repl_branch (z2 : Stm) (s t : List Char) (hs2 : s.length = 2)
    (hk : 0 ≤ z2.k) (hfit : z2.k + 1 < (z2.b.length : Int))
    (h1 : endsB z2 s = true) (ht : t.length = 3) :
    content (setto (setJ z2 s) t) =
      (content z2).take ((content z2).length - 2) ++ t := by
  have h2 : (2 : Int) ≤ z2.k := by
    have := endsB_le h1
    omega
  rw [setto_content _ _ (by rw [setJ_j, hs2]; omega)
    (by rw [setJ_j]; rw [show (setJ z2 s).b = z2.b from rfl]; rw [hs2, ht]; omega)]
  rw [content_take hk (by omega) 2]
  rw [show (setJ z2 s).b = z2.b from rfl, setJ_j, hs2]
  rw [show (z2.k - ((2 : Nat) : Int) + 1).toNat = (z2.k + 1).toNat - 2 by omega]

/-- The correction chain of the verb-ending sub-step, viewed on the word
content: it agrees with the claim's description `spec1bCore`. -/
theorem step1b_core_content (z2 : Stm) (hjk : z2.j = z2.k) (hk : 0 ≤ z2.k)
    (hfit : z2.k + 1 < (z2.b.length : Int)) :
    content (step1b_core z2) = spec1bCore (content z2) := by
  have hl : z2.k < (z2.b.length : Int) := by omega
  have hclen : (content z2).length = (z2.k + 1).toNat := content_length hk hl
  have hEW : ∀ s, endsW (content z2) s = endsB z2 s :=
    fun s => (endsB_endsW hk hl s).symm
  have hDC : doublec (content z2) (((content z2).length : Int) - 1) =
      doublec z2.b z2.k := by
    rw [hclen, show ((((z2.k + 1).toNat : Nat) : Int) - 1) = z2.k by omega, content]
    exact doublec_take (by omega)
  have hCVC : cvc (content z2) (((content z2).length : Int) - 1) = cvc z2.b z2.k := by
    rw [hclen, show ((((z2.k + 1).toNat : Nat) : Int) - 1) = z2.k by omega, content]
    exact cvc_take (by omega)
  have hM : mW (content z2) = m z2.b z2.j := by
    rw [content, mW_take (by omega), hjk]
    congr 1
    omega
  have hGD : (content z2).getD ((content z2).length - 1) ' ' = getc z2.b z2.k := by
    rw [hclen, content, take_getD (by omega)]
    unfold getc
    rw [if_pos hk]
    congr 1
    omega
  unfold step1b_core spec1bCore
  rw [hEW sAT, hEW sBL, hEW sIZ, hDC, hCVC, hM, hGD]
  by_cases h1 : endsB z2 sAT = true
  · rw [if_pos h1, if_pos h1]
    exact core_repl_branch z2 sAT sATE (by norm_num [sAT]) hk hfit h1 (by norm_num [sATE])
  · rw [if_neg h1, if_neg h1]
    by_cases h2 : endsB z2 sBL = true
    · rw [if_pos h2, if_pos h2]
      exact core_repl_branch z2 sBL sBLE (by norm_num [sBL]) hk hfit h2 (by norm_num [sBLE])
    · rw [if_neg h2, if_neg h2]
      by_cases h3 : endsB z2 sIZ = true
      · rw [if_pos h3, if_pos h3]
        exact core_repl_branch z2 sIZ sIZE (by norm_num [sIZ]) hk hfit h3
          (by norm_num [sIZE])
      · rw [if_neg h3, if_neg h3]
        by_cases h4 : doublec z2.b z2.k = true
        · rw [if_pos h4, if_pos h4]
          have hchar : getc z2.b z2.k = getc z2.b (z2.k - 1) := doublec_eq_chars h4
          rw [hchar]
          by_cases h5 : getc z2.b (z2.k - 1) = 'l' ∨ getc z2.b (z2.k - 1) = 's' ∨
              getc z2.b (z2.k - 1) = 'z'
          · rw [if_pos h5, if_pos h5]
          · rw [if_neg h5, if_neg h5]
            rw [content_take hk hl 1]
            show z2.b.take ((z2.k - 1 + 1).toNat) = z2.b.take ((z2.k + 1).toNat - 1)
            congr 1
            omega
        · rw [if_neg h4, if_neg h4]
          by_cases h6 : m z2.b z2.j = 1 ∧ cvc z2.b z2.k = true
          · rw [if_pos h6, if_pos h6]
            rw [setto_content _ _ (by rw [hjk]; exact hk) (by rw [hjk]; norm_num [sE]; omega)]
            rw [hjk]
            rfl
          · rw [if_neg h6, if_neg h6]

/-- C6 counterexample: `agreed` ends in `ed` and the prefix `agre` before
the suffix contains a vowel, yet the verb-ending sub-step takes the `eed`
branch and produces `agree`, not the `agre` the claim's description
yields. -/
theorem C6_cex :
    endsW wAgreed sED = true ∧ wordHasVowel (wAgreed.take (wAgreed.length - 2)) = true ∧
    content (step1b zAgreed) = wAgree ∧ step1bSpec wAgreed = wAgre ∧
    wAgree ≠ wAgre := by
  decide

/-- C6 amended: whenever the word ends in `ed` or `ing` but not in `eed`,
and the prefix before the suffix contains a vowel, the suffix is removed
and the remainder is corrected exactly as `spec1bCore` describes (at→ate,
bl→ble, iz→ize in order; else drop one of a doubled consonant unless it is
l, s or z; else append `e` to a measure-1 CVC remainder). -/
theorem C6_step1b (z : Stm) (hk : 0 ≤ z.k) (hl : z.k < (z.b.length : Int))
    (heed : endsW (content z) sEED = false)
    (hed : endsW (content z) sED = true ∨ endsW (content z) sING = true)
    (hv : wordHasVowel (if endsW (content z) sED = true
        then (content z).take ((content z).length - 2)
        else (content z).take ((content z).length - 3)) = true) :
    content (step1b z) = step1bSpec (content z) := by
  have hEW : ∀ s, endsW (content z) s = endsB z s :=
    fun s => (endsB_endsW hk hl s).symm
  have heed2 : ¬(endsB z sEED = true) := by
    rw [← hEW]
    simp [heed]
  unfold step1b
  rw [if_neg heed2]
  by_cases hED : endsB z sED = true
  · rw [if_pos hED]
    have h2 : (2 : Int) ≤ z.k := by
      have := endsB_le hED
      simp only [sED, List.length_cons, List.length_nil] at this
      omega
    have hvc : vowelinstem z.b (z.k - (sED.length : Int)) = true := by
      rw [hEW sED] at hv
      rw [if_pos hED] at hv
      rw [content_take hk hl 2] at hv
      rw [wordHasVowel_take (by omega)] at hv
      rw [show (((z.k + 1).toNat - 2 : Nat) : Int) - 1 = z.k - (sED.length : Int) by
        simp only [sED, List.length_cons, List.length_nil]; omega] at hv
      exact hv
    rw [if_pos hvc]
    have hcc := step1b_core_content { setJ z sED with k := z.k - (sED.length : Int) }
      rfl (by simp only [sED, List.length_cons, List.length_nil]; push_cast; omega)
      (by simp only [sED, List.length_cons, List.length_nil]
          show z.k - ((2 : Nat) : Int) + 1 < (z.b.length : Int)
          omega)
    rw [hcc]
    unfold step1bSpec
    rw [hEW sED, if_pos hED]
    congr 1
    rw [content_take hk hl 2]
    show z.b.take ((z.k - (sED.length : Int) + 1).toNat) = z.b.take ((z.k + 1).toNat - 2)
    congr 1
    simp only [sED, List.length_cons, List.length_nil]
    omega
  · rw [if_neg hED]
    have hING : endsB z sING = true := by
      rcases hed with h | h
      · rw [hEW sED] at h
        exact absurd h hED
      · rwa [hEW sING] at h
    rw [if_pos hING]
    have h3 : (3 : Int) ≤ z.k := by
      have := endsB_le hING
      simp only [sING, List.length_cons, List.length_nil] at this
      omega
    have hvc : vowelinstem z.b (z.k - (sING.length : Int)) = true := by
      rw [hEW sED] at hv
      rw [if_neg hED] at hv
      rw [content_take hk hl 3] at hv
      rw [wordHasVowel_take (by omega)] at hv
      rw [show (((z.k + 1).toNat - 3 : Nat) : Int) - 1 = z.k - (sING.length : Int) by
        simp only [sING, List.length_cons, List.length_nil]; omega] at hv
      exact hv
    rw [if_pos hvc]
    have hcc := step1b_core_content { setJ z sING with k := z.k - (sING.length : Int) }
      rfl (by simp only [sING, List.length_cons, List.length_nil]; push_cast; omega)
      (by simp only [sING, List.length_cons, List.length_nil]
          show z.k - ((3 : Nat) : Int) + 1 < (z.b.length : Int)
          omega)
    rw [hcc]
    unfold step1bSpec
    rw [hEW sED]
    rw [if_neg hED]
    congr 1
    rw [content_take hk hl 3]
    show z.b.take ((z.k - (sING.length : Int) + 1).toNat) = z.b.take ((z.k + 1).toNat - 3)
    congr 1
    simp only [sING, List.length_cons, List.length_nil]
    omega

/-- C6 witness: the amended sub-step description instantiated on the
initial state of `hopping` (remove `ing`, then drop one `p`). -/
theorem C6_step1b_witness :
    content (step1b { b := wHopping, j := 0, k := 6 }) = step1bSpec wHopping ∧
    step1bSpec wHopping = wHop := by
  constructor
  · exact C6_step1b { b := wHopping, j := 0, k := 6 } (by decide) (by decide)
      (by decide) (by decide) (by decide)
  · decide

end Porter
